import Mathlib

/-!
# File explorer: navigation state machine, path resolution and search

A shallow embedding of `Navigator` (src/src/Navigator.cpp, src/include/Navigator.h) and of
`SearchEngine` (src/src/SearchEngine.cpp, src/include/SearchEngine.h).

* `std::string` is a `List Char`.
* `std::stack<std::string>` is a `List` whose head is the top of the stack.
* `std::vector` is a `List` in index order (`push_back` appends at the end).
* The two calls that leave the program, `stat` + `S_ISDIR` and `getpwuid`, are the fields of
  `Env`; every call of a mutating operation receives its own `Env`, so the file system may
  change between calls.
* The file system that a search walks is a finite tree of `DirEntry` values holding what
  `opendir`/`readdir`, `stat` and `std::ifstream` deliver for each entry; `std::regex` is a
  parameter of type `RegexLib`.
* Diagnostics written to `std::cout` / `std::cerr` are not modelled.
-/

namespace FileExplorer

/-- A `std::string`. -/
abbrev Str := List Char

/-- The `Bookmark` struct of Navigator.h. -/
structure Bookmark where
  name : Str
  path : Str
  description : Str
deriving DecidableEq, Repr

/-- The private fields of class `Navigator`. The head of a history list is the top of the
corresponding `std::stack`. -/
structure Navigator where
  history_back : List Str
  history_forward : List Str
  bookmarks : List Bookmark
  current_path : Str
deriving DecidableEq, Repr

/-- The outside world as one call sees it: `isDir p` is
`stat(p, &info) == 0 && S_ISDIR(info.st_mode)`, and `home` is what `getHomeDirectory()` returns. -/
structure Env where
  isDir : Str → Bool
  home : Str

/-- The constant `Navigator::MAX_HISTORY_SIZE`. -/
def MAX_HISTORY_SIZE : Nat := 100

/-! ## String primitives of the standard library -/

/-- The call `s.find(pat)`: the least index at which `pat` occurs in `s`, `none` for `npos`. -/
def find (pat : Str) : Str → Option Nat
  | [] => if pat = [] then some 0 else none
  | c :: cs =>
    if pat.isPrefixOf (c :: cs) then some 0
    else (find pat cs).map (· + 1)

/-- The call `s.replace(pos, len, r)`. -/
def replace (s : Str) (pos len : Nat) (r : Str) : Str :=
  s.take pos ++ r ++ s.drop (pos + len)

/-- The call `s.find_last_of(ch)`: the greatest index holding `ch`, `none` for `npos`. -/
def find_last_of (ch : Char) : Str → Option Nat
  | [] => none
  | c :: cs =>
    match find_last_of ch cs with
    | some i => some (i + 1)
    | none => if c = ch then some 0 else none

/-- All the tokens that repeated `std::getline(ss, component, delim)` calls extract from a
stream holding `s`, until the call fails. A token ends at the next `delim` (which is consumed)
or at the end of the stream; a call made when nothing is left to read fails, so a string that
ends in `delim` yields no empty last token. -/
def getlines (delim : Char) : Str → List Str
  | [] => []
  | c :: cs =>
    if c = delim then [] :: getlines delim cs
    else
      match getlines delim cs with
      | [] => [[c]]
      | t :: ts => (c :: t) :: ts

/-! ## Path utilities -/

/-- The loop `while (normalized.find("//") != npos) normalized.replace(normalized.find("//"), 2, "/")`
of `normalizePath`, run for at most `fuel` iterations. -/
def collapseSlashes : Nat → Str → Str
  | 0, s => s
  | fuel + 1, s =>
    match find ['/', '/'] s with
    | none => s
    | some pos => collapseSlashes fuel (replace s pos 2 ['/'])

/-- The method `Navigator::normalizePath`. Every iteration of the loop shortens the string by
one character, so `path.length` iterations are enough. -/
def normalizePath (path : Str) : Str :=
  let normalized := collapseSlashes path.length path
  if normalized.length > 1 ∧ normalized.getLast? = some '/' then normalized.dropLast
  else normalized

/-- One iteration of the `while (std::getline(ss, component, '/'))` loop of `getAbsolutePath`,
acting on the vector `components`. -/
def componentStep (components : List Str) (component : Str) : List Str :=
  if component = [] ∨ component = ['.'] then components
  else if component = ['.', '.'] then
    if components ≠ [] ∧ components.getLast? ≠ some ['.', '.'] then components.dropLast
    else if components = [] then components ++ [['.', '.']]
    else components
  else components ++ [component]

/-- One iteration of the loop `for (const auto& comp : components)` of `getAbsolutePath`,
acting on the string `result`. -/
def reconstructStep (result : Str) (comp : Str) : Str :=
  if result = [] ∨ result.getLast? ≠ some '/' then result ++ ('/' :: comp)
  else result ++ comp

/-- The string that `getAbsolutePath` joins and tokenizes: the input itself when it starts with
`/`, otherwise `current_path + "/" + path`. -/
def joinedPath (current_path path : Str) : Str :=
  if path.head? = some '/' then path else current_path ++ ['/'] ++ path

/-- The general branch of `getAbsolutePath` (after the special cases), as a function of the
current path and the input. -/
def resolveGeneral (current_path path : Str) : Str :=
  let absolute_path := joinedPath current_path path
  let components := (getlines '/' absolute_path).foldl componentStep []
  let result := components.foldl reconstructStep []
  let result := if result = [] then ['/'] else result
  normalizePath result

/-- The method `Navigator::getAbsolutePath`; `home` is the result of `getHomeDirectory()`. -/
def getAbsolutePath (nav : Navigator) (home : Str) (path : Str) : Str :=
  if path = [] then nav.current_path
  else if path = ['~'] then home
  else if path = ['-'] then
    match nav.history_back with
    | top :: _ => top
    | [] => nav.current_path
  else resolveGeneral nav.current_path path

/-- The method `Navigator::getParentPath`. -/
def getParentPath (path : Str) : Str :=
  if path = [] ∨ path = ['/'] then ['/']
  else
    match find_last_of '/' path with
    | none => ['/']
    | some last_slash => if last_slash = 0 then ['/'] else path.take last_slash

/-! ## Navigation -/

/-- The loop `while (history_back.size() > MAX_HISTORY_SIZE) history_back.pop()`: `pop` removes
the top of the stack. -/
def limitHistory : List Str → List Str
  | [] => []
  | top :: rest =>
    if (top :: rest).length > MAX_HISTORY_SIZE then limitHistory rest else top :: rest

/-- The method `Navigator::navigateTo`: the returned flag and the state after the call. -/
def navigateTo (env : Env) (nav : Navigator) (path : Str) : Bool × Navigator :=
  let target_path := getAbsolutePath nav env.home path
  if env.isDir target_path = false then (false, nav)
  else
    let back :=
      if nav.current_path ≠ [] then limitHistory (nav.current_path :: nav.history_back)
      else nav.history_back
    (true, { nav with
      history_back := back
      history_forward := []
      current_path := normalizePath target_path })

/-- The method `Navigator::goBack`. -/
def goBack (nav : Navigator) : Bool × Navigator :=
  match nav.history_back with
  | [] => (false, nav)
  | top :: rest =>
    (true, { nav with
      history_forward := nav.current_path :: nav.history_forward
      current_path := top
      history_back := rest })

/-- The method `Navigator::goForward`. -/
def goForward (nav : Navigator) : Bool × Navigator :=
  match nav.history_forward with
  | [] => (false, nav)
  | top :: rest =>
    (true, { nav with
      history_back := nav.current_path :: nav.history_back
      current_path := top
      history_forward := rest })

/-- The method `Navigator::goToParent`. -/
def goToParent (env : Env) (nav : Navigator) : Bool × Navigator :=
  navigateTo env nav (getParentPath nav.current_path)

/-- The method `Navigator::goToHome`. -/
def goToHome (env : Env) (nav : Navigator) : Bool × Navigator :=
  navigateTo env nav env.home

/-- The method `Navigator::addToHistory`. -/
def addToHistory (nav : Navigator) (path : Str) : Navigator :=
  if path ≠ [] ∧ path ≠ nav.current_path then
    { nav with history_back := limitHistory (nav.current_path :: nav.history_back) }
  else nav

/-- The method `Navigator::clearHistory`. -/
def clearHistory (nav : Navigator) : Navigator :=
  { nav with history_back := [], history_forward := [] }

/-- The method `Navigator::setCurrentPath`. -/
def setCurrentPath (nav : Navigator) (path : Str) : Navigator :=
  { nav with current_path := normalizePath path }

/-- The method `Navigator::addBookmark`. -/
def addBookmark (env : Env) (nav : Navigator) (name path description : Str) :
    Bool × Navigator :=
  if nav.bookmarks.any (fun bookmark => bookmark.name = name) then (false, nav)
  else
    let full_path := getAbsolutePath nav env.home path
    if env.isDir full_path = false then (false, nav)
    else
      let new_bookmark : Bookmark :=
        { name := name
          path := full_path
          description := if description = [] then name else description }
      (true, { nav with bookmarks := nav.bookmarks ++ [new_bookmark] })

/-- The loop of `Navigator::removeBookmark` over the vector: the first bookmark called `name`
is erased; `none` when the loop ends without finding one. -/
def eraseFirstNamed (name : Str) : List Bookmark → Option (List Bookmark)
  | [] => none
  | b :: bs =>
    if b.name = name then some bs
    else (eraseFirstNamed name bs).map (b :: ·)

/-- The method `Navigator::removeBookmark`. -/
def removeBookmark (nav : Navigator) (name : Str) : Bool × Navigator :=
  match eraseFirstNamed name nav.bookmarks with
  | some bs => (true, { nav with bookmarks := bs })
  | none => (false, nav)

/-- The method `Navigator::getBookmark`, returning a copy of the bookmark instead of a pointer:
the first bookmark called `name`. -/
def getBookmark (nav : Navigator) (name : Str) : Option Bookmark :=
  nav.bookmarks.find? (fun bookmark => bookmark.name = name)

/-- The method `Navigator::goToBookmark`. -/
def goToBookmark (env : Env) (nav : Navigator) (name : Str) : Bool × Navigator :=
  match nav.bookmarks.find? (fun bookmark => bookmark.name = name) with
  | some bookmark => navigateTo env nav bookmark.path
  | none => (false, nav)

/-- The loop `while (!temp_stack.empty())` of the history accessors: the top of the copied
stack is inserted at the beginning of the vector `history`, then popped. -/
def drainStack : List Str → List Str → List Str
  | [], history => history
  | top :: rest, history => drainStack rest (top :: history)

/-- The method `Navigator::getHistoryBack`. It is `const` and drains a copy of the stack, so it
has no state to return. -/
def getHistoryBack (nav : Navigator) : List Str :=
  let temp_stack := nav.history_back
  drainStack temp_stack []

/-- The method `Navigator::getHistoryForward`. It is `const` and drains a copy of the stack, so
it has no state to return. -/
def getHistoryForward (nav : Navigator) : List Str :=
  let temp_stack := nav.history_forward
  drainStack temp_stack []

/-- The method `Navigator::getBookmarks`. -/
def getBookmarks (nav : Navigator) : List Bookmark := nav.bookmarks

/-- The method `Navigator::hasBack`. -/
def hasBack (nav : Navigator) : Bool := !nav.history_back.isEmpty

/-- The method `Navigator::hasForward`. -/
def hasForward (nav : Navigator) : Bool := !nav.history_forward.isEmpty

/-! ## Sequences of calls -/

/-- A call of one of the public mutating methods of `Navigator`, with its arguments. -/
inductive Call where
  | navigateTo (path : Str)
  | goBack
  | goForward
  | goToParent
  | goToHome
  | addToHistory (path : Str)
  | clearHistory
  | addBookmark (name path description : Str)
  | removeBookmark (name : Str)
  | goToBookmark (name : Str)
  | setCurrentPath (path : Str)
deriving DecidableEq, Repr

/-- The state after a call made in environment `env`, whether it succeeded or not. -/
def Call.exec (env : Env) (nav : Navigator) : Call → Navigator
  | .navigateTo path => (FileExplorer.navigateTo env nav path).2
  | .goBack => (FileExplorer.goBack nav).2
  | .goForward => (FileExplorer.goForward nav).2
  | .goToParent => (FileExplorer.goToParent env nav).2
  | .goToHome => (FileExplorer.goToHome env nav).2
  | .addToHistory path => FileExplorer.addToHistory nav path
  | .clearHistory => FileExplorer.clearHistory nav
  | .addBookmark name path description =>
    (FileExplorer.addBookmark env nav name path description).2
  | .removeBookmark name => (FileExplorer.removeBookmark nav name).2
  | .goToBookmark name => (FileExplorer.goToBookmark env nav name).2
  | .setCurrentPath path => FileExplorer.setCurrentPath nav path

/-- The six navigation calls: `navigateTo`, `goBack`, `goForward`, `goToParent`, `goToHome`
and `goToBookmark`. -/
def Call.isNavigation : Call → Bool
  | .navigateTo _ | .goBack | .goForward | .goToParent | .goToHome | .goToBookmark _ => true
  | _ => false

/-- The state after a sequence of calls, each made in its own environment. -/
def runCalls (nav : Navigator) (calls : List (Env × Call)) : Navigator :=
  calls.foldl (fun s c => c.2.exec c.1 s) nav

/-! ## Vocabulary of the specification for paths -/

/-- The string `"/" + c1 + "/" + c2 + ... + "/" + cn` (empty when there is no component). -/
def slashJoin : List Str → Str
  | [] => []
  | c :: cs => '/' :: (c ++ slashJoin cs)

/-- The absolute path with the given components: `slashJoin cs`, and `/` when there is none. -/
def absPath (cs : List Str) : Str :=
  if cs = [] then ['/'] else slashJoin cs

/-- The `/`-delimited segments of a string; `/a/b` has the segments ``, `a` and `b`. -/
def segments (p : Str) : List Str := p.splitOn '/'

/-- The string contains no two consecutive `/`. -/
def NoDoubleSlash (p : Str) : Prop :=
  ¬ ['/', '/'] <:+: p

instance (p : Str) : Decidable (NoDoubleSlash p) :=
  inferInstanceAs (Decidable (¬ ['/', '/'] <:+: p))

/-- The invariants of a ResolvedPath: it starts with `/`, has no repeated `/`, does not end in
`/` unless it is the root path `/`, and has no segment equal to `.`. -/
def Canonical (p : Str) : Prop :=
  p.head? = some '/' ∧ NoDoubleSlash p ∧ (p.getLast? = some '/' → p = ['/']) ∧
    ['.'] ∉ segments p

instance (p : Str) : Decidable (Canonical p) :=
  inferInstanceAs (Decidable (p.head? = some '/' ∧ NoDoubleSlash p ∧
    (p.getLast? = some '/' → p = ['/']) ∧ ['.'] ∉ segments p))

/-- What `getAbsolutePath` keeps as a component: a non-empty token without `/` other than `.`. -/
def GoodComponent (c : Str) : Prop :=
  c ≠ [] ∧ '/' ∉ c ∧ c ≠ ['.']

instance (c : Str) : Decidable (GoodComponent c) :=
  inferInstanceAs (Decidable (c ≠ [] ∧ '/' ∉ c ∧ c ≠ ['.']))

/-! ## Sample environments and states -/

/-- An environment in which every path is an existing directory and the home is `/home`. -/
def envAll : Env := { isDir := fun _ => true, home := "/home".toList }

/-- An environment in which no path is an existing directory. -/
def envNone : Env := { isDir := fun _ => false, home := "/home".toList }

/-- A state in the middle of a history: one entry behind, one ahead, one bookmark. -/
def sampleNav : Navigator :=
  { history_back := ["/a".toList]
    history_forward := ["/c".toList]
    bookmarks := [{ name := "docs".toList, path := "/docs".toList, description := "docs".toList }]
    current_path := "/b".toList }

/-- A state whose back history holds exactly 100 entries: `/newest` on top, `/oldest` at the
bottom and 98 copies of `/mid` between them. -/
def fullNav : Navigator :=
  { history_back := "/newest".toList :: (List.replicate 98 "/mid".toList ++ ["/oldest".toList])
    history_forward := []
    bookmarks := []
    current_path := "/cur".toList }

/-! ## Reference definition of `normalizePath` -/

/-- Every maximal run of consecutive `/` replaced by a single `/`: a `/` is dropped exactly
when the next character is a `/` too. -/
def collapseRuns : Str → Str
  | [] => []
  | c :: rest =>
    if c = '/' ∧ rest.head? = some '/' then collapseRuns rest else c :: collapseRuns rest

/-- The reference definition of `normalize`: collapse every run of `/` into one, then remove
one trailing `/` if the collapsed string is longer than one character. -/
def normalizeRef (path : Str) : Str :=
  if (collapseRuns path).length > 1 ∧ (collapseRuns path).getLast? = some '/' then
    (collapseRuns path).dropLast
  else collapseRuns path

/-! ## The search engine: patterns -/

/-- One iteration of the loop `for (char c : glob_pattern)` of `SearchEngine::globToRegex`: the
`switch` on `c`, acting on the string `regex`. -/
def globToRegexStep (regex : Str) (c : Char) : Str :=
  if c = '*' then regex ++ ['.', '*']
  else if c = '?' then regex ++ ['.']
  else if c = '.' ∨ c = '^' ∨ c = '$' ∨ c = '+' ∨ c = '(' ∨ c = ')' ∨ c = '[' ∨ c = ']' ∨
      c = '\x7b' ∨ c = '\x7d' ∨ c = '|' ∨ c = '\\' then (regex ++ ['\\']) ++ [c]
  else regex ++ [c]

/-- The method `SearchEngine::globToRegex`. -/
def globToRegex (glob_pattern : Str) : Str :=
  glob_pattern.foldl globToRegexStep []

/-- The regex metacharacters that the specification lists for escaping:
`. ^ $ + ( ) [ ] { } | \`. -/
def regexMetaChars : List Char :=
  ['.', '^', '$', '+', '(', ')', '[', ']', '\x7b', '\x7d', '|', '\\']

/-- The image of one glob character in the specification: `*` becomes `.*`, `?` becomes `.`,
a metacharacter becomes a backslash followed by itself, any other character is unchanged. -/
def globImage (c : Char) : Str :=
  if c = '*' then ".*".toList
  else if c = '?' then ".".toList
  else if c ∈ regexMetaChars then ['\\', c]
  else [c]

/-! ## The search engine: data -/

/-- The struct `SearchCriteria` of SearchEngine.h. The sizes are `size_t`, the times `time_t`. -/
structure SearchCriteria where
  name_pattern : Str
  content_pattern : Str
  min_size : Nat
  max_size : Nat
  modified_after : Int
  modified_before : Int
  case_sensitive : Bool
  use_regex : Bool
  search_content : Bool
  recursive : Bool
  include_hidden : Bool
deriving DecidableEq, Repr

/-- The default member initializers of `SearchCriteria`; `max_size` is `SIZE_MAX`. -/
def defaultCriteria : SearchCriteria :=
  { name_pattern := []
    content_pattern := []
    min_size := 0
    max_size := 2 ^ 64 - 1
    modified_after := 0
    modified_before := 0
    case_sensitive := true
    use_regex := false
    search_content := false
    recursive := true
    include_hidden := false }

/-- The struct `SearchResult` of SearchEngine.h. A line number is an `int` in the source; it is
a natural number here (a file of more than `INT_MAX` lines is not modelled). -/
structure SearchResult where
  path : Str
  name : Str
  type : Str
  size : Nat
  content_matches : List (Nat × Str)
deriving DecidableEq, Repr

/-- What the macros `S_ISDIR`, `S_ISLNK` and `S_ISREG` tell about `st_mode`; at most one of them
holds for a given mode. -/
inductive FileKind where
  | directory
  | symlink
  | regular
  | other
deriving DecidableEq, Repr

/-- The fields of `struct stat` that the search reads. `st_size` is a natural number: `stat`
reports no negative size. -/
structure Stat where
  st_size : Nat
  st_mtime : Int
  kind : FileKind
deriving DecidableEq, Repr

/-- The library `std::regex` as the search uses it: `compile pattern icase` is the constructor
`std::regex(pattern, icase ? ECMAScript | icase : ECMAScript)`, `none` when it throws
`std::regex_error`; the function it returns is `std::regex_search(text, regex)`. -/
structure RegexLib where
  compile : Str → Bool → Option (Str → Bool)

/-- A finite directory tree as the search sees it. For the entry called `name` of a directory,
`stat` is what `stat(full_path, &file_stat)` reports (`none` when it fails), `content` is the
text that `std::ifstream file(full_path)` reads (`none` when the file cannot be opened) and
`dir` is the sequence of entries that `opendir(full_path)` and `readdir` deliver, in listing
order (`none` when `opendir` fails). -/
inductive DirEntry where
  | mk (name : Str) (stat : Option Stat) (content : Option Str) (dir : Option (List DirEntry))

/-- The name of an entry (`entry->d_name`). -/
def DirEntry.name : DirEntry → Str
  | .mk name _ _ _ => name

/-- The result of `stat` on an entry. -/
def DirEntry.stat : DirEntry → Option Stat
  | .mk _ stat _ _ => stat

/-- The text read from an entry opened as a file. -/
def DirEntry.content : DirEntry → Option Str
  | .mk _ _ content _ => content

/-- The listing of an entry opened as a directory. -/
def DirEntry.dir : DirEntry → Option (List DirEntry)
  | .mk _ _ _ dir => dir

/-- The vector `results` together with the log of the paths passed to `opendir`, in call
order. -/
structure Walk where
  results : List SearchResult
  opened : List Str
deriving DecidableEq, Repr

/-! ## The search engine: matching -/

/-- The method `SearchEngine::matchesNamePattern`. -/
def matchesNamePattern (lib : RegexLib) (name : Str) (criteria : SearchCriteria) : Bool :=
  if criteria.use_regex then
    match lib.compile criteria.name_pattern (!criteria.case_sensitive) with
    | some pattern => pattern name
    | none => false
  else
    let regex_pattern := globToRegex criteria.name_pattern
    match lib.compile regex_pattern (!criteria.case_sensitive) with
    | some pattern => pattern name
    | none => false

/-- The expression `path.substr(path.find_last_of('/') + 1)` of `matchesCriteria`; when there
is no `/`, `npos + 1` wraps around to `0`. -/
def entryName (path : Str) : Str :=
  match find_last_of '/' path with
  | some i => path.drop (i + 1)
  | none => path.drop 0

/-- The method `SearchEngine::matchesCriteria`. -/
def matchesCriteria (lib : RegexLib) (path : Str) (file_stat : Stat)
    (criteria : SearchCriteria) : Bool :=
  let name := entryName path
  if criteria.name_pattern ≠ [] ∧ matchesNamePattern lib name criteria = false then false
  else if file_stat.st_size < criteria.min_size ∨ file_stat.st_size > criteria.max_size then
    false
  else if criteria.modified_after > 0 ∧ file_stat.st_mtime < criteria.modified_after then false
  else if criteria.modified_before > 0 ∧ file_stat.st_mtime > criteria.modified_before then
    false
  else true

/-- The loop `while (std::getline(file, line))` of `searchInFile`, acting on the vector
`matches`; `line_number` is the counter. -/
def scanLines (pattern : Str → Bool) : List Str → Nat → List (Nat × Str) → List (Nat × Str)
  | [], _, found => found
  | line :: rest, line_number, found =>
    scanLines pattern rest (line_number + 1)
      (if pattern line then found ++ [(line_number, line)] else found)

/-- The method `SearchEngine::searchInFile`; `file` is the text of the file at `file_path`,
`none` when the stream cannot be opened. -/
def searchInFile (lib : RegexLib) (file : Option Str) (criteria : SearchCriteria) :
    List (Nat × Str) :=
  match file with
  | none => []
  | some text =>
    match lib.compile criteria.content_pattern (!criteria.case_sensitive) with
    | none => []
    | some pattern => scanLines pattern (getlines '\n' text) 1 []

/-! ## The search engine: the walk -/

/-- The two `continue` tests at the head of the `readdir` loop: a name that begins with `.`
when hidden entries are excluded, and the names `.` and `..`. -/
def skipsName (criteria : SearchCriteria) (name : Str) : Bool :=
  (!criteria.include_hidden && !name.isEmpty && name.head? == some '.') ||
    (name == ['.'] || name == ['.', '.'])

/-- The string stored in `result.type`. -/
def typeName : FileKind → Str
  | .directory => "Directory".toList
  | .symlink => "Symbolic Link".toList
  | .regular => "File".toList
  | .other => "Other".toList

/-- The `SearchResult` that `searchInDirectory` builds for a matching entry. -/
def makeResult (lib : RegexLib) (criteria : SearchCriteria) (full_path name : Str)
    (file_stat : Stat) (content : Option Str) : SearchResult :=
  { path := full_path
    name := name
    type := typeName file_stat.kind
    size := file_stat.st_size
    content_matches :=
      if criteria.search_content = true ∧ file_stat.kind = FileKind.regular then
        searchInFile lib content criteria
      else [] }

mutual
/-- The method `SearchEngine::searchInDirectory`; `dir` is what `opendir(dir_path)` and
`readdir` deliver. -/
def searchInDirectory (lib : RegexLib) (criteria : SearchCriteria) (dir_path : Str) :
    Option (List DirEntry) → Walk → Walk
  | none, w => { w with opened := w.opened ++ [dir_path] }
  | some entries, w =>
    readdirLoop lib criteria dir_path entries { w with opened := w.opened ++ [dir_path] }
/-- The loop `while ((entry = readdir(dir)) != nullptr)` of `searchInDirectory`. -/
def readdirLoop (lib : RegexLib) (criteria : SearchCriteria) (dir_path : Str) :
    List DirEntry → Walk → Walk
  | [], w => w
  | entry :: rest, w =>
    readdirLoop lib criteria dir_path rest (visitEntry lib criteria dir_path entry w)
/-- The body of the `readdir` loop for one entry. -/
def visitEntry (lib : RegexLib) (criteria : SearchCriteria) (dir_path : Str) :
    DirEntry → Walk → Walk
  | .mk name stat content dir, w =>
    if skipsName criteria name then w
    else
      let full_path := dir_path ++ ['/'] ++ name
      match stat with
      | none => w
      | some file_stat =>
        let w1 :=
          if matchesCriteria lib full_path file_stat criteria then
            { w with results :=
                w.results ++ [makeResult lib criteria full_path name file_stat content] }
          else w
        if criteria.recursive = true ∧ file_stat.kind = FileKind.directory then
          searchInDirectory lib criteria full_path dir w1
        else w1
end

/-- The state in which `findFiles` leaves the walk: `searchInDirectory` run on the search path
from an empty `results` vector. -/
def findFilesWalk (lib : RegexLib) (criteria : SearchCriteria) (search_path : Str)
    (dir : Option (List DirEntry)) : Walk :=
  searchInDirectory lib criteria search_path dir { results := [], opened := [] }

/-- The method `SearchEngine::findFiles`; `dir` is the tree found at `search_path`. -/
def findFiles (lib : RegexLib) (criteria : SearchCriteria) (search_path : Str)
    (dir : Option (List DirEntry)) : List SearchResult :=
  (findFilesWalk lib criteria search_path dir).results

/-! ## A fragment of ECMAScript regular expressions

`std::regex` belongs to the standard library. The fragment below covers the patterns made of
single characters, `.`, escaped punctuation and `*` after any of them, which is enough for the
output of `globToRegex` on patterns built from ordinary characters, `*`, `?` and `.`, and for
plain words. A pattern outside the fragment is reported as not compiling here, so the fragment
is only used on patterns that lie inside it. -/

/-- One character position of a pattern: `.` or a given character. -/
inductive ReAtom where
  | anyChar
  | char (c : Char)
deriving DecidableEq, Repr

/-- A token of a pattern: an atom or the quantifier `*`. -/
inductive ReToken where
  | atom (a : ReAtom)
  | star
deriving DecidableEq, Repr

/-- An atom with or without `*` after it. -/
structure RePiece where
  atom : ReAtom
  star : Bool
deriving DecidableEq, Repr

/-- The punctuation with a meaning of its own in an ECMAScript pattern. -/
def reSyntaxChars : List Char :=
  ['^', '$', '\\', '.', '*', '+', '?', '(', ')', '[', ']', '\x7b', '\x7d', '|']

/-- The tokens of a pattern; `escaped` tells that the previous character was a backslash. An
escaped punctuation character stands for itself; other escapes and the unescaped punctuation
other than `.` and `*` are outside the fragment. -/
def reTokens : Bool → Str → Option (List ReToken)
  | escaped, [] => if escaped then none else some []
  | escaped, c :: rest =>
    if escaped then
      if c ∈ reSyntaxChars then (reTokens false rest).map (ReToken.atom (ReAtom.char c) :: ·)
      else none
    else if c = '\\' then reTokens true rest
    else if c = '.' then (reTokens false rest).map (ReToken.atom ReAtom.anyChar :: ·)
    else if c = '*' then (reTokens false rest).map (ReToken.star :: ·)
    else if c ∈ reSyntaxChars then none
    else (reTokens false rest).map (ReToken.atom (ReAtom.char c) :: ·)

/-- The pieces of a token sequence: every `*` must follow an atom. -/
def rePieces : List ReToken → Option (List RePiece)
  | [] => some []
  | ReToken.star :: _ => none
  | ReToken.atom a :: ReToken.star :: rest =>
    (rePieces rest).map ({ atom := a, star := true } :: ·)
  | ReToken.atom a :: rest => (rePieces rest).map ({ atom := a, star := false } :: ·)

/-- Whether an atom matches a character. With `icase` letters are compared after `tolower`;
`.` matches every character but the line terminators. -/
def reAtomMatches (icase : Bool) : ReAtom → Char → Bool
  | ReAtom.anyChar, c => c != '\n' && c != '\r'
  | ReAtom.char a, c => if icase then a.toLower == c.toLower else a == c

/-- The loop of a starred atom: `k` is tried on the rest of the text after zero or more
characters that the atom matches. -/
def reStar (ok : Char → Bool) (k : Str → Bool) : Str → Bool
  | [] => k []
  | c :: cs => k (c :: cs) || (ok c && reStar ok k cs)

/-- Whether the pieces match a prefix of the text. -/
def reMatchesHere (icase : Bool) : List RePiece → Str → Bool
  | [], _ => true
  | p :: ps, text =>
    if p.star then reStar (reAtomMatches icase p.atom) (reMatchesHere icase ps) text
    else
      match text with
      | [] => false
      | c :: cs => reAtomMatches icase p.atom c && reMatchesHere icase ps cs

/-- The function `std::regex_search` for a compiled pattern: a match may start at any position
of the text and end anywhere. -/
def reSearch (icase : Bool) (ps : List RePiece) (text : Str) : Bool :=
  text.tails.any (reMatchesHere icase ps)

/-- The fragment as a regex library. -/
def ecmaFragment : RegexLib :=
  { compile := fun pattern icase =>
      ((reTokens false pattern).bind rePieces).map (reSearch icase) }

/-- The criteria of a case-insensitive glob search for `*.txt`. -/
def globTxtCriteria : SearchCriteria :=
  { defaultCriteria with name_pattern := "*.txt".toList, case_sensitive := false }

/-! ## Reference definition of the walk -/

mutual
/-- The results of the walk of a directory: nothing when it cannot be opened, otherwise the
results of its entries. -/
def walk (lib : RegexLib) (criteria : SearchCriteria) (dir_path : Str) :
    Option (List DirEntry) → List SearchResult
  | none => []
  | some entries => walkEntries lib criteria dir_path entries
/-- The results of the entries of a directory: those of the first entry, then those of the
entries listed after it. -/
def walkEntries (lib : RegexLib) (criteria : SearchCriteria) (dir_path : Str) :
    List DirEntry → List SearchResult
  | [] => []
  | entry :: rest =>
    walkEntry lib criteria dir_path entry ++ walkEntries lib criteria dir_path rest
/-- The results of one entry: none when it is skipped or its metadata probe fails; otherwise
its own result, if it matches, with path `dir_path + "/" + name` and the probed size, followed
by the results from inside it, if it is a directory and the search is recursive. -/
def walkEntry (lib : RegexLib) (criteria : SearchCriteria) (dir_path : Str) :
    DirEntry → List SearchResult
  | .mk name stat content dir =>
    if skipsName criteria name then []
    else
      match stat with
      | none => []
      | some file_stat =>
        (if matchesCriteria lib (dir_path ++ ['/'] ++ name) file_stat criteria then
          [makeResult lib criteria (dir_path ++ ['/'] ++ name) name file_stat content]
        else []) ++
        (if criteria.recursive = true ∧ file_stat.kind = FileKind.directory then
          walk lib criteria (dir_path ++ ['/'] ++ name) dir
        else [])
end

mutual
/-- The paths passed to `opendir` during the walk of a directory, the directory first. They
depend on the criteria only through `recursive` and `include_hidden`. -/
def opens (recursive include_hidden : Bool) (dir_path : Str) :
    Option (List DirEntry) → List Str
  | none => [dir_path]
  | some entries => dir_path :: opensEntries recursive include_hidden dir_path entries
/-- The paths passed to `opendir` for the entries of a directory, in listing order. -/
def opensEntries (recursive include_hidden : Bool) (dir_path : Str) :
    List DirEntry → List Str
  | [] => []
  | entry :: rest =>
    opensEntry recursive include_hidden dir_path entry ++
      opensEntries recursive include_hidden dir_path rest
/-- The paths passed to `opendir` for one entry: none unless the entry is kept, its metadata
probe reports a directory and the search is recursive. -/
def opensEntry (recursive include_hidden : Bool) (dir_path : Str) : DirEntry → List Str
  | .mk name stat _ dir =>
    if skipsName { defaultCriteria with include_hidden := include_hidden } name then []
    else
      match stat with
      | none => []
      | some file_stat =>
        if recursive = true ∧ file_stat.kind = FileKind.directory then
          opens recursive include_hidden (dir_path ++ ['/'] ++ name) dir
        else []
end

/-- The name after the last `/` of a path (the whole path when it has no `/`). -/
def baseName (path : Str) : Str :=
  (path.reverse.takeWhile (fun c => c != '/')).reverse

/-- The criteria of a content search for the word `TODO`. -/
def todoCriteria : SearchCriteria :=
  { defaultCriteria with content_pattern := "TODO".toList, search_content := true }

/-- A file of three lines whose second line holds a `TODO`. -/
def todoFile : Str := "int x;\n// TODO: fix\nreturn x;\n".toList

/-! ## Vocabulary of the specification for the walk -/

/-- The entries that a recursive walk reaches. `Reaches criteria dir_path entries full_path e`
says that `e`, at `full_path`, is an entry of the directory `dir_path` or of one of the
directories below it, that the walk does not skip `e` (not hidden when hidden entries are
excluded, not `.` or `..`), and that every directory on the way from `dir_path` to `e` is not
skipped either, is reported as a directory by its metadata probe and can be opened. -/
inductive Reaches (criteria : SearchCriteria) :
    Str → List DirEntry → Str → DirEntry → Prop where
  | here {dir_path : Str} {entries : List DirEntry} {e : DirEntry} :
      e ∈ entries → skipsName criteria e.name = false →
      Reaches criteria dir_path entries (dir_path ++ ['/'] ++ e.name) e
  | inside {dir_path : Str} {entries sub : List DirEntry} {d e : DirEntry} {st : Stat}
      {full_path : Str} :
      d ∈ entries → skipsName criteria d.name = false → d.stat = some st →
      st.kind = FileKind.directory → d.dir = some sub →
      Reaches criteria (dir_path ++ ['/'] ++ d.name) sub full_path e →
      Reaches criteria dir_path entries full_path e

/-- The status of a regular file of ten bytes. -/
def fileStat : Stat := { st_size := 10, st_mtime := 1000, kind := FileKind.regular }

/-- The status of a directory. -/
def dirStat : Stat := { st_size := 4096, st_mtime := 1000, kind := FileKind.directory }

/-- The tree `/root/{a.txt, sub/{b.txt}}` as listed at `/root`. -/
def sampleTree : List DirEntry :=
  [ DirEntry.mk "a.txt".toList (some fileStat) (some todoFile) none,
    DirEntry.mk "sub".toList (some dirStat) none
      (some [DirEntry.mk "b.txt".toList (some fileStat) (some []) none]) ]

/-- A directory whose only entry is the hidden file `.b.txt`. -/
def hiddenTree : List DirEntry :=
  [ DirEntry.mk ".b.txt".toList (some fileStat) (some []) none ]

/-- The criteria of a recursive, case-sensitive glob search for `*.txt`. -/
def txtCriteria : SearchCriteria :=
  { defaultCriteria with name_pattern := "*.txt".toList }

/-- The result `r` reports an entry that the walk of `entries` at `dir_path` reaches: the
metadata probe of the entry succeeds, the entry satisfies `matchesCriteria`, and `r` is the
`SearchResult` built for it. -/
def Reports (lib : RegexLib) (criteria : SearchCriteria) (dir_path : Str)
    (entries : List DirEntry) (r : SearchResult) : Prop :=
  ∃ full_path e st, Reaches criteria dir_path entries full_path e ∧ e.stat = some st ∧
    matchesCriteria lib full_path st criteria = true ∧
    r = makeResult lib criteria full_path e.name st e.content

/-- The criteria of a regex search whose name pattern `(` does not compile (`std::regex`
rejects the unbalanced parenthesis). -/
def badRegexCriteria : SearchCriteria :=
  { defaultCriteria with name_pattern := "(".toList, use_regex := true }

/-- A directory with a hidden file, a hidden directory holding a file, and the entries `.`
and `..`. -/
def dottedTree : List DirEntry :=
  [ DirEntry.mk ".".toList (some dirStat) none (some []),
    DirEntry.mk "..".toList (some dirStat) none (some []),
    DirEntry.mk ".git".toList (some dirStat) none
      (some [DirEntry.mk "config".toList (some fileStat) (some []) none]),
    DirEntry.mk ".profile".toList (some fileStat) (some []) none,
    DirEntry.mk "a.txt".toList (some fileStat) (some []) none ]

/-- The names `.` and `..` do not occur in the list, and with hidden entries excluded no name of
the list begins with `.`. -/
def NamesKept (include_hidden : Bool) (names : List Str) : Prop :=
  ∀ n ∈ names, n ≠ ['.'] ∧ n ≠ ['.', '.'] ∧ (include_hidden = false → n.head? ≠ some '.')

/-- A freshly constructed Navigator whose working directory is `/home`: no history and no
bookmark. -/
def freshNav : Navigator :=
  { history_back := [], history_forward := [], bookmarks := [], current_path := "/home".toList }

/-- A run of public calls: 100 times `navigateTo("/d")`, then `goBack()`,
`addToHistory("/x")` and `goForward()`, all in an environment where every path is a
directory. -/
def overflowCalls : List (Env × Call) :=
  List.replicate 100 (envAll, Call.navigateTo "/d".toList) ++
    [(envAll, Call.goBack), (envAll, Call.addToHistory "/x".toList), (envAll, Call.goForward)]

/-- The fields of a result other than `content_matches`: path, name, type and size. -/
def entryFields (r : SearchResult) : Str × Str × Str × Nat :=
  (r.path, r.name, r.type, r.size)

/-! ## The bounded back history -/

theorem limitHistory_of_le (l : List Str) (h : l.length ≤ 100) : limitHistory l = l := by
  cases l with
  | nil => rfl
  | cons a t =>
    have : ¬ (t.length + 1 > 100) := by simp at h; omega
    simp [limitHistory, MAX_HISTORY_SIZE, this]

theorem limitHistory_length_le (l : List Str) : (limitHistory l).length ≤ 100 := by
  induction l with
  | nil => simp [limitHistory]
  | cons a t ih =>
    unfold limitHistory
    split
    · exact ih
    · rename_i h
      simp [MAX_HISTORY_SIZE] at h
      simpa using h

theorem limitHistory_cons_full (a : Str) (l : List Str) (h : l.length = 100) :
    limitHistory (a :: l) = l := by
  have h1 : (a :: l).length > MAX_HISTORY_SIZE := by simp [MAX_HISTORY_SIZE, h]
  rw [limitHistory, if_pos h1]
  exact limitHistory_of_le l (by omega)

/-! ## Navigation: single calls -/

/-- C1. Branch invalidation: whenever the directory probe accepts the resolved target of
`path`, `navigateTo path` returns true and the forward history is empty afterwards, whatever
it held before. -/
theorem navigateTo_clears_forward (env : Env) (nav : Navigator) (path : Str)
    (hdir : env.isDir (getAbsolutePath nav env.home path) = true) :
    (navigateTo env nav path).1 = true ∧ (navigateTo env nav path).2.history_forward = [] := by
  simp [navigateTo, hdir]

/-- C1 at a state whose forward history is not empty. -/
theorem navigateTo_clears_forward_witness :
    sampleNav.history_forward ≠ [] ∧
    (navigateTo envAll sampleNav "x".toList).1 = true ∧
      (navigateTo envAll sampleNav "x".toList).2.history_forward = [] :=
  ⟨by decide, navigateTo_clears_forward envAll sampleNav "x".toList rfl⟩

/-- C2. `goBack` and `goForward` are mutually inverse on the whole state: with a non-empty back
history, `goBack` then `goForward` both return true and give back the state they started from
(current path, back, forward and bookmarks); with a non-empty forward history the same holds
for `goForward` then `goBack`. -/
theorem goBack_goForward_inverse (nav : Navigator) :
    (nav.history_back ≠ [] →
      (goBack nav).1 = true ∧ goForward (goBack nav).2 = (true, nav)) ∧
    (nav.history_forward ≠ [] →
      (goForward nav).1 = true ∧ goBack (goForward nav).2 = (true, nav)) := by
  obtain ⟨b, f, bm, c⟩ := nav
  constructor
  · intro h
    cases b with
    | nil => exact absurd rfl h
    | cons t r => simp [goBack, goForward]
  · intro h
    cases f with
    | nil => exact absurd rfl h
    | cons t r => simp [goBack, goForward]

/-- C2 at a state with entries on both sides. -/
theorem goBack_goForward_inverse_witness :
    ((goBack sampleNav).1 = true ∧ goForward (goBack sampleNav).2 = (true, sampleNav)) ∧
    ((goForward sampleNav).1 = true ∧ goBack (goForward sampleNav).2 = (true, sampleNav)) :=
  ⟨(goBack_goForward_inverse sampleNav).1 (by decide),
   (goBack_goForward_inverse sampleNav).2 (by decide)⟩

theorem navigateTo_false_state (env : Env) (nav : Navigator) (path : Str)
    (h : (navigateTo env nav path).1 = false) : (navigateTo env nav path).2 = nav := by
  unfold navigateTo at h ⊢
  by_cases hd : env.isDir (getAbsolutePath nav env.home path) = false
  · simp [hd]
  · simp [hd] at h

theorem eraseFirstNamed_eq_none (name : Str) (bs : List Bookmark) :
    eraseFirstNamed name bs = none ↔ ∀ b ∈ bs, b.name ≠ name := by
  induction bs with
  | nil => simp [eraseFirstNamed]
  | cons b bs ih =>
    by_cases hb : b.name = name
    · simp [eraseFirstNamed, hb]
    · simp [eraseFirstNamed, hb, ih]

/-- C4. All-or-nothing failure: whenever `navigateTo`, `goBack`, `goForward`, `goToParent`,
`goToBookmark`, `addBookmark` or `removeBookmark` returns false, the state after the call
(current path, back, forward, bookmarks) is the state before it. -/
theorem failure_leaves_state (env : Env) (nav : Navigator) (path name description : Str) :
    ((navigateTo env nav path).1 = false → (navigateTo env nav path).2 = nav) ∧
    ((goBack nav).1 = false → (goBack nav).2 = nav) ∧
    ((goForward nav).1 = false → (goForward nav).2 = nav) ∧
    ((goToParent env nav).1 = false → (goToParent env nav).2 = nav) ∧
    ((goToBookmark env nav name).1 = false → (goToBookmark env nav name).2 = nav) ∧
    ((addBookmark env nav name path description).1 = false →
      (addBookmark env nav name path description).2 = nav) ∧
    ((removeBookmark nav name).1 = false → (removeBookmark nav name).2 = nav) := by
  refine ⟨navigateTo_false_state env nav path, ?_, ?_, ?_, ?_, ?_, ?_⟩
  · unfold goBack
    cases nav.history_back <;> simp
  · unfold goForward
    cases nav.history_forward <;> simp
  · exact navigateTo_false_state env nav _
  · unfold goToBookmark
    cases nav.bookmarks.find? (fun bookmark => bookmark.name = name) with
    | none => simp
    | some b => exact navigateTo_false_state env nav _
  · unfold addBookmark
    by_cases h1 : nav.bookmarks.any (fun bookmark => bookmark.name = name) = true
    · simp [h1]
    · by_cases h2 : env.isDir (getAbsolutePath nav env.home path) = false
      · simp [h2]
      · simp [h1, h2]
  · unfold removeBookmark
    cases eraseFirstNamed name nav.bookmarks <;> simp

/-- C4 where every one of the seven calls fails: nothing is a directory, both histories are
empty, and no bookmark is called `docs` in the empty list while `sampleNav` has one. -/
theorem failure_leaves_state_witness :
    (navigateTo envNone sampleNav "x".toList).2 = sampleNav ∧
    (goBack (clearHistory sampleNav)).2 = clearHistory sampleNav ∧
    (goForward (clearHistory sampleNav)).2 = clearHistory sampleNav ∧
    (goToParent envNone sampleNav).2 = sampleNav ∧
    (goToBookmark envNone sampleNav "docs".toList).2 = sampleNav ∧
    (addBookmark envNone sampleNav "docs".toList "x".toList []).2 = sampleNav ∧
    (removeBookmark sampleNav "nope".toList).2 = sampleNav :=
  ⟨(failure_leaves_state envNone sampleNav "x".toList "docs".toList []).1 (by decide),
   (failure_leaves_state envNone (clearHistory sampleNav) [] [] []).2.1 (by decide),
   (failure_leaves_state envNone (clearHistory sampleNav) [] [] []).2.2.1 (by decide),
   (failure_leaves_state envNone sampleNav [] [] []).2.2.2.1 (by decide),
   (failure_leaves_state envNone sampleNav [] "docs".toList []).2.2.2.2.1 (by decide),
   (failure_leaves_state envNone sampleNav "x".toList "docs".toList []).2.2.2.2.2.1 (by decide),
   (failure_leaves_state envNone sampleNav [] "nope".toList []).2.2.2.2.2.2 (by decide)⟩

/-- C5. `navigateTo path` returns true exactly when the directory probe accepts the resolved
target `getAbsolutePath path`; on success from a non-empty current path with fewer than 100
back entries, the new current path is `normalizePath target`, the back history is the old one
with the old current path pushed on top, and the bookmarks are unchanged. -/
theorem navigateTo_spec (env : Env) (nav : Navigator) (path : Str) :
    ((navigateTo env nav path).1 = true ↔
      env.isDir (getAbsolutePath nav env.home path) = true) ∧
    ((navigateTo env nav path).1 = true → nav.current_path ≠ [] →
      nav.history_back.length < 100 →
      (navigateTo env nav path).2.current_path
          = normalizePath (getAbsolutePath nav env.home path) ∧
        (navigateTo env nav path).2.history_back = nav.current_path :: nav.history_back ∧
        (navigateTo env nav path).2.bookmarks = nav.bookmarks) := by
  by_cases hd : env.isDir (getAbsolutePath nav env.home path) = false
  · simp [navigateTo, hd]
  · refine ⟨by simp [navigateTo, hd], ?_⟩
    intro _ hcur hlen
    have hlim : limitHistory (nav.current_path :: nav.history_back)
        = nav.current_path :: nav.history_back :=
      limitHistory_of_le _ (by simp; omega)
    simp [navigateTo, hd, hcur, hlim]

/-- C5 at a successful call from `/b` with one back entry. -/
theorem navigateTo_spec_witness :
    (navigateTo envAll sampleNav "x/".toList).1 = true ∧
    (navigateTo envAll sampleNav "x/".toList).2.current_path = "/b/x".toList ∧
    (navigateTo envAll sampleNav "x/".toList).2.history_back = ["/b".toList, "/a".toList] ∧
    (navigateTo envAll sampleNav "x/".toList).2.bookmarks = sampleNav.bookmarks :=
  ⟨by decide,
   (navigateTo_spec envAll sampleNav "x/".toList).2 (by decide) (by decide) (by decide)⟩

/-! ## Navigation: sequences of calls -/

theorem navigateTo_history_sum (env : Env) (nav : Navigator) (path : Str)
    (h : nav.history_back.length + nav.history_forward.length ≤ 100) :
    (navigateTo env nav path).2.history_back.length
      + (navigateTo env nav path).2.history_forward.length ≤ 100 := by
  unfold navigateTo
  by_cases hd : env.isDir (getAbsolutePath nav env.home path) = false
  · simpa [hd] using h
  · by_cases hc : nav.current_path = []
    · simp [hd, hc]; omega
    · simpa [hd, hc] using limitHistory_length_le _

theorem exec_navigation_history_sum (env : Env) (nav : Navigator) (c : Call)
    (hc : c.isNavigation = true)
    (h : nav.history_back.length + nav.history_forward.length ≤ 100) :
    (c.exec env nav).history_back.length + (c.exec env nav).history_forward.length ≤ 100 := by
  cases c with
  | navigateTo path => exact navigateTo_history_sum env nav path h
  | goBack =>
    simp only [Call.exec, goBack]
    cases hb : nav.history_back with
    | nil => simpa [hb] using h
    | cons t r => simp [hb] at h ⊢; omega
  | goForward =>
    simp only [Call.exec, goForward]
    cases hf : nav.history_forward with
    | nil => simpa [hf] using h
    | cons t r => simp [hf] at h ⊢; omega
  | goToParent => exact navigateTo_history_sum env nav _ h
  | goToHome => exact navigateTo_history_sum env nav _ h
  | goToBookmark name =>
    simp only [Call.exec, goToBookmark]
    cases nav.bookmarks.find? (fun bookmark => bookmark.name = name) with
    | none => exact h
    | some b => exact navigateTo_history_sum env nav _ h
  | addToHistory _ => simp [Call.isNavigation] at hc
  | clearHistory => simp [Call.isNavigation] at hc
  | addBookmark _ _ _ => simp [Call.isNavigation] at hc
  | removeBookmark _ => simp [Call.isNavigation] at hc
  | setCurrentPath _ => simp [Call.isNavigation] at hc

theorem runCalls_navigation_history_sum (calls : List (Env × Call)) :
    ∀ nav : Navigator, (∀ c ∈ calls, c.2.isNavigation = true) →
      nav.history_back.length + nav.history_forward.length ≤ 100 →
      (runCalls nav calls).history_back.length
        + (runCalls nav calls).history_forward.length ≤ 100 := by
  induction calls with
  | nil => intro nav _ h; exact h
  | cons c cs ih =>
    intro nav hc h
    have h1 := exec_navigation_history_sum c.1 nav c.2 (hc c (List.mem_cons_self _ _)) h
    exact ih _ (fun d hd => hc d (List.mem_cons_of_mem _ hd)) h1

/-- C3. In every state reached from a Navigator with empty back and forward histories by a
finite sequence of `navigateTo`, `goBack`, `goForward`, `goToParent`, `goToHome` and
`goToBookmark` calls, successful or not and each in its own environment, the back history holds
at most 100 entries. -/
theorem back_history_bounded (init : Navigator) (calls : List (Env × Call))
    (hback : init.history_back = []) (hforward : init.history_forward = [])
    (hcalls : ∀ c ∈ calls, c.2.isNavigation = true) :
    (runCalls init calls).history_back.length ≤ 100 := by
  have h := runCalls_navigation_history_sum calls init hcalls (by simp [hback, hforward])
  omega

/-- C3 on a run that navigates, goes back and goes forward again. -/
theorem back_history_bounded_witness :
    (runCalls (clearHistory sampleNav)
      [(envAll, Call.navigateTo "x".toList), (envAll, Call.goToParent), (envAll, Call.goBack),
       (envAll, Call.goForward), (envAll, Call.goToHome),
       (envAll, Call.goToBookmark "docs".toList)]).history_back.length ≤ 100 :=
  back_history_bounded (clearHistory sampleNav) _ rfl rfl (by decide)

/-! ## A full back history -/

theorem navigateTo_full_back (env : Env) (nav : Navigator) (path : Str)
    (hfull : nav.history_back.length = 100) (hcur : nav.current_path ≠ [])
    (hdir : env.isDir (getAbsolutePath nav env.home path) = true) :
    (navigateTo env nav path).2.history_back = nav.history_back := by
  simp [navigateTo, hdir, hcur, limitHistory_cons_full _ _ hfull]

theorem navigateTo_goBack_of_room (env : Env) (nav : Navigator) (path : Str)
    (hroom : nav.history_back.length < 100) (hcur : nav.current_path ≠ [])
    (hdir : env.isDir (getAbsolutePath nav env.home path) = true) :
    (goBack (navigateTo env nav path).2).1 = true ∧
    (goBack (navigateTo env nav path).2).2.current_path = nav.current_path := by
  have hlim : limitHistory (nav.current_path :: nav.history_back)
      = nav.current_path :: nav.history_back :=
    limitHistory_of_le _ (by simp; omega)
  simp [navigateTo, hdir, hcur, hlim, goBack]

/-- C6. At a state whose back history holds 100 entries, a successful `navigateTo` leaves the
back history exactly as it was: the entry that the size limit removes is the previous current
path that was just pushed, while the oldest entry `/oldest` stays at the bottom. So the back
history is not the old one with its oldest entry dropped and `/cur` on top. -/
theorem navigateTo_full_back_keeps_oldest :
    fullNav.history_back.length = 100 ∧
    (navigateTo envAll fullNav "/new".toList).1 = true ∧
    (navigateTo envAll fullNav "/new".toList).2.history_back = fullNav.history_back ∧
    (navigateTo envAll fullNav "/new".toList).2.history_back.head? = some "/newest".toList ∧
    (navigateTo envAll fullNav "/new".toList).2.history_back.getLast? = some "/oldest".toList ∧
    (navigateTo envAll fullNav "/new".toList).2.history_back
      ≠ fullNav.current_path :: fullNav.history_back.dropLast := by
  have hlen : fullNav.history_back.length = 100 := by simp [fullNav]
  have hback := navigateTo_full_back envAll fullNav "/new".toList hlen (by decide) rfl
  refine ⟨hlen, rfl, hback, ?_, ?_, ?_⟩
  · rw [hback]; rfl
  · rw [hback]; simp [fullNav]
  · rw [hback]
    intro h
    have h2 := congrArg List.head? h
    revert h2
    decide

/-- C7. At a state whose back history holds 100 entries and whose current path is `/cur`, a
successful `navigateTo` followed by `goBack` succeeds but makes `/newest` (the top of the old
back history) the current path, not `/cur`. -/
theorem navigateTo_goBack_full_back :
    fullNav.current_path = "/cur".toList ∧
    (navigateTo envAll fullNav "/new".toList).1 = true ∧
    (goBack (navigateTo envAll fullNav "/new".toList).2).1 = true ∧
    (goBack (navigateTo envAll fullNav "/new".toList).2).2.current_path = "/newest".toList ∧
    (goBack (navigateTo envAll fullNav "/new".toList).2).2.current_path
      ≠ fullNav.current_path := by
  have hlen : fullNav.history_back.length = 100 := by simp [fullNav]
  have hback := navigateTo_full_back envAll fullNav "/new".toList hlen (by decide) rfl
  have hgo : (goBack (navigateTo envAll fullNav "/new".toList).2).1 = true ∧
      (goBack (navigateTo envAll fullNav "/new".toList).2).2.current_path
        = "/newest".toList := by
    unfold goBack
    rw [hback]
    exact ⟨rfl, rfl⟩
  refine ⟨rfl, rfl, hgo.1, hgo.2, ?_⟩
  rw [hgo.2]
  decide

/-! ## Path resolution: the tokens and the component stack -/

theorem getlines_no_delim (d : Char) (s : Str) : ∀ t ∈ getlines d s, d ∉ t := by
  induction s with
  | nil => simp [getlines]
  | cons c cs ih =>
    unfold getlines
    by_cases hc : c = d
    · simp only [hc, if_true]
      intro t ht
      rcases List.mem_cons.1 ht with h | h
      · simp [h]
      · exact ih t h
    · simp only [hc, if_false]
      cases hg : getlines d cs with
      | nil =>
        intro t ht
        simp at ht
        subst ht
        simpa using fun h => hc h.symm
      | cons t0 ts =>
        rw [hg] at ih
        intro t ht
        rcases List.mem_cons.1 ht with h | h
        · subst h
          have := ih t0 (List.mem_cons_self _ _)
          simp only [List.mem_cons, not_or]
          exact ⟨fun h => hc h.symm, this⟩
        · exact ih t (List.mem_cons_of_mem _ h)

theorem getlines_append_delim (d : Char) (c rest : Str) (hc : d ∉ c) :
    getlines d (c ++ d :: rest) = c :: getlines d rest := by
  induction c with
  | nil => simp [getlines]
  | cons a c ih =>
    simp only [List.mem_cons, not_or] at hc
    have ha : ¬ a = d := fun h => hc.1 h.symm
    simp [getlines, ha, ih hc.2]

theorem getlines_no_delim_self (d : Char) (c : Str) (hc : d ∉ c) (hne : c ≠ []) :
    getlines d c = [c] := by
  induction c with
  | nil => exact absurd rfl hne
  | cons a c ih =>
    simp only [List.mem_cons, not_or] at hc
    have ha : ¬ a = d := fun h => hc.1 h.symm
    cases c with
    | nil => simp [getlines, ha]
    | cons b c =>
      have hb := ih hc.2 (by simp)
      rw [getlines, if_neg ha, hb]

theorem componentStep_good (comps : List Str) (t : Str) (ht : '/' ∉ t)
    (h : ∀ c ∈ comps, GoodComponent c) : ∀ c ∈ componentStep comps t, GoodComponent c := by
  unfold componentStep
  by_cases h1 : t = [] ∨ t = ['.']
  · simpa [h1] using h
  · rw [if_neg h1]
    by_cases h2 : t = ['.', '.']
    · rw [if_pos h2]
      split
      · exact fun c hc => h c (List.mem_of_mem_dropLast hc)
      · split
        · intro c hc
          simp only [List.mem_append, List.mem_singleton] at hc
          rcases hc with hc | hc
          · exact h c hc
          · subst hc; decide
        · exact h
    · rw [if_neg h2]
      intro c hc
      simp only [List.mem_append, List.mem_singleton] at hc
      rcases hc with hc | hc
      · exact h c hc
      · subst hc
        simp only [not_or] at h1
        exact ⟨h1.1, ht, h1.2⟩

theorem foldl_componentStep_good (ts : List Str) (hts : ∀ t ∈ ts, '/' ∉ t) :
    ∀ comps : List Str, (∀ c ∈ comps, GoodComponent c) →
      ∀ c ∈ ts.foldl componentStep comps, GoodComponent c := by
  induction ts with
  | nil => intro comps h; simpa using h
  | cons t ts ih =>
    intro comps h
    simp only [List.foldl_cons]
    exact ih (fun u hu => hts u (List.mem_cons_of_mem _ hu)) _
      (componentStep_good comps t (hts t (List.mem_cons_self _ _)) h)

/-! ## Path resolution: putting the components together -/

theorem slashJoin_append (xs ys : List Str) :
    slashJoin (xs ++ ys) = slashJoin xs ++ slashJoin ys := by
  induction xs with
  | nil => rfl
  | cons x xs ih => simp [slashJoin, ih]

theorem getLast?_append_cons_of_good (acc c : Str) (hc : GoodComponent c) :
    (acc ++ '/' :: c).getLast? ≠ some '/' := by
  obtain ⟨hne, hs, _⟩ := hc
  have h1 : (acc ++ '/' :: c) = (acc ++ ['/']) ++ c := by simp
  rw [h1, List.getLast?_append_of_ne_nil _ hne]
  intro h
  exact hs (List.mem_of_getLast?_eq_some h)

theorem foldl_reconstructStep (comps : List Str) (h : ∀ c ∈ comps, GoodComponent c) :
    ∀ acc : Str, (acc = [] ∨ acc.getLast? ≠ some '/') →
      comps.foldl reconstructStep acc = acc ++ slashJoin comps := by
  induction comps with
  | nil => intro acc _; simp [slashJoin]
  | cons c cs ih =>
    intro acc hacc
    simp only [List.foldl_cons]
    have hstep : reconstructStep acc c = acc ++ '/' :: c := by
      unfold reconstructStep
      rw [if_pos hacc]
    rw [hstep, ih (fun d hd => h d (List.mem_cons_of_mem _ hd)) _
      (Or.inr (getLast?_append_cons_of_good acc c (h c (List.mem_cons_self _ _))))]
    simp [slashJoin]

theorem doubleSlash_prefix_iff (x : Char) (t : Str) :
    ['/', '/'] <+: x :: t ↔ x = '/' ∧ t.head? = some '/' := by
  cases t with
  | nil => simp [eq_comm]
  | cons y t => simp [eq_comm]

theorem noDoubleSlash_cons (x : Char) (t : Str) :
    NoDoubleSlash (x :: t) ↔ ¬ (x = '/' ∧ t.head? = some '/') ∧ NoDoubleSlash t := by
  unfold NoDoubleSlash
  rw [List.infix_cons_iff, doubleSlash_prefix_iff, not_or]

theorem noDoubleSlash_append_of_no_slash (c t : Str) (hc : '/' ∉ c) (ht : NoDoubleSlash t) :
    NoDoubleSlash (c ++ t) := by
  induction c with
  | nil => simpa using ht
  | cons a c ih =>
    simp only [List.mem_cons, not_or] at hc
    rw [List.cons_append, noDoubleSlash_cons]
    exact ⟨fun h => hc.1 h.1.symm, ih hc.2⟩

theorem slashJoin_noDoubleSlash (comps : List Str) (h : ∀ c ∈ comps, GoodComponent c) :
    NoDoubleSlash (slashJoin comps) := by
  induction comps with
  | nil => simp [slashJoin, NoDoubleSlash]
  | cons c cs ih =>
    obtain ⟨hne, hs, _⟩ := h c (List.mem_cons_self _ _)
    rw [slashJoin, noDoubleSlash_cons]
    refine ⟨?_, noDoubleSlash_append_of_no_slash c _ hs
      (ih (fun d hd => h d (List.mem_cons_of_mem _ hd)))⟩
    rintro ⟨-, hh⟩
    cases c with
    | nil => exact hne rfl
    | cons a c =>
      simp only [List.cons_append, List.head?_cons, Option.some.injEq] at hh
      exact hs (by simp [hh])

theorem slashJoin_getLast? (comps : List Str) (h : ∀ c ∈ comps, GoodComponent c) :
    (slashJoin comps).getLast? ≠ some '/' := by
  induction comps using List.reverseRecOn with
  | nil => simp [slashJoin]
  | append_singleton cs c _ =>
    rw [slashJoin_append]
    have : slashJoin [c] = '/' :: c := by simp [slashJoin]
    rw [this]
    exact getLast?_append_cons_of_good _ c (h c (by simp))

theorem find_doubleSlash_eq_none (s : Str) (h : NoDoubleSlash s) : find ['/', '/'] s = none := by
  induction s with
  | nil => simp [find]
  | cons c cs ih =>
    have hp : ¬ ['/', '/'] <+: c :: cs := fun hp => h hp.isInfix
    have hi : NoDoubleSlash cs := ((noDoubleSlash_cons c cs).1 h).2
    have hb : (['/', '/'] : Str).isPrefixOf (c :: cs) = false := by
      rw [Bool.eq_false_iff]
      intro hb
      exact hp (List.isPrefixOf_iff_prefix.1 hb)
    simp [find, hb, ih hi]

theorem collapseSlashes_of_noDoubleSlash (fuel : Nat) (s : Str) (h : NoDoubleSlash s) :
    collapseSlashes fuel s = s := by
  cases fuel with
  | zero => rfl
  | succ n => simp [collapseSlashes, find_doubleSlash_eq_none s h]

theorem normalizePath_of_canonical_shape (s : Str) (h : NoDoubleSlash s)
    (hlast : s.getLast? = some '/' → s = ['/']) : normalizePath s = s := by
  unfold normalizePath
  simp only [collapseSlashes_of_noDoubleSlash _ s h]
  split
  · rename_i hc
    have := hlast hc.2
    subst this
    simp at hc
  · rfl

theorem absPath_noDoubleSlash (comps : List Str) (h : ∀ c ∈ comps, GoodComponent c) :
    NoDoubleSlash (absPath comps) := by
  unfold absPath
  split
  · decide
  · exact slashJoin_noDoubleSlash comps h

theorem absPath_getLast? (comps : List Str) (h : ∀ c ∈ comps, GoodComponent c) :
    (absPath comps).getLast? = some '/' → absPath comps = ['/'] := by
  unfold absPath
  split
  · intro _; rfl
  · intro hl
    exact absurd hl (slashJoin_getLast? comps h)

theorem absPath_head? (comps : List Str) : (absPath comps).head? = some '/' := by
  unfold absPath
  cases comps with
  | nil => rfl
  | cons c cs => simp [slashJoin]

/-- The general branch of `getAbsolutePath` returns the absolute path made of the components
that survive the tokenizing loop. -/
theorem resolveGeneral_eq_absPath (current_path path : Str) :
    resolveGeneral current_path path
      = absPath ((getlines '/' (joinedPath current_path path)).foldl componentStep []) := by
  have hgood := foldl_componentStep_good (getlines '/' (joinedPath current_path path))
    (getlines_no_delim '/' _) [] (by simp)
  have hrec := foldl_reconstructStep _ hgood [] (Or.inl rfl)
  have hnorm := normalizePath_of_canonical_shape _ (absPath_noDoubleSlash _ hgood)
    (absPath_getLast? _ hgood)
  unfold resolveGeneral
  simp only [hrec, List.nil_append]
  have habs : (if slashJoin ((getlines '/' (joinedPath current_path path)).foldl
        componentStep []) = [] then ['/']
      else slashJoin ((getlines '/' (joinedPath current_path path)).foldl componentStep []))
      = absPath ((getlines '/' (joinedPath current_path path)).foldl componentStep []) := by
    unfold absPath
    cases (getlines '/' (joinedPath current_path path)).foldl componentStep [] with
    | nil => simp [slashJoin]
    | cons c cs => simp [slashJoin]
  rw [habs, hnorm]

theorem intercalate_slash_cons (cs : List Str) :
    ∀ c : Str, (['/'] : Str).intercalate (c :: cs) = c ++ slashJoin cs := by
  induction cs with
  | nil => intro c; simp [List.intercalate, slashJoin]
  | cons d ds ih =>
    intro c
    have h := ih d
    simp only [List.intercalate, List.intersperse_cons_cons, List.flatten_cons] at h ⊢
    rw [h]
    simp [slashJoin]

theorem segments_slashJoin (comps : List Str) (h : ∀ c ∈ comps, '/' ∉ c) :
    segments (slashJoin comps) = [] :: comps := by
  have hi := intercalate_slash_cons comps []
  simp only [List.nil_append] at hi
  unfold segments
  rw [← hi]
  apply List.splitOn_intercalate
  · intro l hl
    rcases List.mem_cons.1 hl with hl | hl
    · simp [hl]
    · exact h l hl
  · simp

theorem absPath_canonical (comps : List Str) (h : ∀ c ∈ comps, GoodComponent c) :
    Canonical (absPath comps) := by
  refine ⟨absPath_head? comps, absPath_noDoubleSlash comps h, absPath_getLast? comps h, ?_⟩
  unfold absPath
  split
  · decide
  · rw [segments_slashJoin comps (fun c hc => (h c hc).2.1)]
    intro hm
    rcases List.mem_cons.1 hm with hm | hm
    · exact absurd hm (by decide)
    · exact (h _ hm).2.2 rfl

/-- C8. Canonical output of `getAbsolutePath`: for every input other than the empty string,
`~` and `-`, and every current path, the result starts with `/`, contains no two consecutive
`/`, does not end in `/` unless it is exactly `/`, and has no segment equal to `.`; for the
inputs the empty string and `-` the same holds whenever the current path and the most recent
back entry (if there is one) already satisfy it. -/
theorem getAbsolutePath_canonical (nav : Navigator) (home path : Str) :
    (path ≠ [] → path ≠ ['~'] → path ≠ ['-'] → Canonical (getAbsolutePath nav home path)) ∧
    (path = [] ∨ path = ['-'] → Canonical nav.current_path →
      (∀ top, nav.history_back.head? = some top → Canonical top) →
      Canonical (getAbsolutePath nav home path)) := by
  constructor
  · intro h1 h2 h3
    simp only [getAbsolutePath, h1, h2, h3, if_false]
    rw [resolveGeneral_eq_absPath]
    exact absPath_canonical _ (foldl_componentStep_good _ (getlines_no_delim '/' _) [] (by simp))
  · intro hp hcur hback
    rcases hp with hp | hp
    · simpa [getAbsolutePath, hp] using hcur
    · subst hp
      simp only [getAbsolutePath]
      cases hb : nav.history_back with
      | nil => simpa using hcur
      | cons top rest => simpa using hback top (by simp [hb])

/-- C8 at a relative input against a current path that is itself not canonical, and at `-`
against a canonical state. -/
theorem getAbsolutePath_canonical_witness :
    Canonical (getAbsolutePath (setCurrentPath sampleNav "a//b/.".toList) [] "./x//..".toList) ∧
    Canonical (getAbsolutePath sampleNav [] ['-']) :=
  ⟨(getAbsolutePath_canonical _ [] "./x//..".toList).1 (by decide) (by decide) (by decide),
   (getAbsolutePath_canonical sampleNav [] ['-']).2 (Or.inr rfl) (by decide) (by decide)⟩

/-! ## Resolving `..` -/

theorem componentStep_plain (comps : List Str) (c : Str) (h1 : c ≠ []) (h2 : c ≠ ['.'])
    (h3 : c ≠ ['.', '.']) : componentStep comps c = comps ++ [c] := by
  simp [componentStep, h1, h2, h3]

theorem foldl_componentStep_plain (cs : List Str)
    (h : ∀ c ∈ cs, c ≠ [] ∧ c ≠ ['.'] ∧ c ≠ ['.', '.']) :
    ∀ comps : List Str, cs.foldl componentStep comps = comps ++ cs := by
  induction cs with
  | nil => intro comps; simp
  | cons c cs ih =>
    intro comps
    obtain ⟨h1, h2, h3⟩ := h c (List.mem_cons_self _ _)
    rw [List.foldl_cons, componentStep_plain comps c h1 h2 h3,
      ih (fun d hd => h d (List.mem_cons_of_mem _ hd))]
    simp

theorem getlines_slashJoin_append (cs : List Str) (h : ∀ c ∈ cs, '/' ∉ c) :
    ∀ rest : Str,
      getlines '/' (slashJoin cs ++ '/' :: rest) = [] :: (cs ++ getlines '/' rest) := by
  induction cs using List.reverseRecOn with
  | nil => intro rest; simp [slashJoin, getlines]
  | append_singleton cs c ih =>
    intro rest
    have hc : '/' ∉ c := h c (by simp)
    have e : slashJoin (cs ++ [c]) ++ '/' :: rest
        = slashJoin cs ++ '/' :: (c ++ '/' :: rest) := by
      simp [slashJoin_append, slashJoin]
    rw [e, ih (fun d hd => h d (by simp [hd])), getlines_append_delim '/' c rest hc]
    simp

theorem find_last_of_append (ch : Char) (pre c : Str) (hc : ch ∉ c) :
    find_last_of ch (pre ++ ch :: c) = some pre.length := by
  have hnone : find_last_of ch c = none := by
    induction c with
    | nil => rfl
    | cons a c ih =>
      simp only [List.mem_cons, not_or] at hc
      have ha : ¬ a = ch := fun h => hc.1 h.symm
      simp [find_last_of, ih hc.2, ha]
  induction pre with
  | nil => simp [find_last_of, hnone]
  | cons a pre ih => simp [find_last_of, ih]

theorem slashJoin_concat (cs : List Str) (c : Str) :
    slashJoin (cs ++ [c]) = slashJoin cs ++ '/' :: c := by
  simp [slashJoin_append, slashJoin]

theorem getParentPath_slashJoin_concat (cs : List Str) (c : Str) (hc : '/' ∉ c)
    (hne : c ≠ []) : getParentPath (slashJoin (cs ++ [c])) = absPath cs := by
  rw [slashJoin_concat]
  have h1 : slashJoin cs ++ '/' :: c ≠ [] := by simp
  have h2 : slashJoin cs ++ '/' :: c ≠ ['/'] := by
    cases cs with
    | nil => simpa [slashJoin] using hne
    | cons d ds => simp [slashJoin]
  unfold getParentPath
  rw [if_neg (by simp [h1, h2]), find_last_of_append '/' _ c hc]
  simp only [List.take_left]
  unfold absPath
  cases cs with
  | nil => simp [slashJoin]
  | cons d ds => simp [slashJoin]

/-- C9. Resolving `..` removes the last component and agrees with `getParentPath`: when the
current path is `/c1/.../cn` with `n ≥ 1` and every `ci` a non-empty string without `/` other
than `.` and `..`, `getAbsolutePath ".."` equals `getParentPath current_path`, which is
`/c1/.../c(n-1)`, or `/` when `n = 1`; in particular resolving `..` against `/a/b` gives `/a`. -/
theorem getAbsolutePath_dotdot_parent (nav : Navigator) (home : Str) (cs : List Str)
    (hne : cs ≠ [])
    (hcs : ∀ c ∈ cs, c ≠ [] ∧ '/' ∉ c ∧ c ≠ ['.'] ∧ c ≠ ['.', '.'])
    (hcur : nav.current_path = slashJoin cs) :
    getAbsolutePath nav home ['.', '.'] = getParentPath nav.current_path ∧
    getAbsolutePath nav home ['.', '.'] = absPath cs.dropLast ∧
    (nav.current_path = "/a/b".toList → getAbsolutePath nav home ['.', '.'] = "/a".toList) := by
  have hres : getAbsolutePath nav home ['.', '.'] = absPath cs.dropLast := by
    have hj : joinedPath nav.current_path ['.', '.'] = slashJoin cs ++ '/' :: ['.', '.'] := by
      simp [joinedPath, hcur]
    have htok : getlines '/' (joinedPath nav.current_path ['.', '.'])
        = [] :: (cs ++ [['.', '.']]) := by
      rw [hj, getlines_slashJoin_append cs (fun c hc => (hcs c hc).2.1)]
      rfl
    have hfold : ([] :: (cs ++ [['.', '.']])).foldl componentStep [] = cs.dropLast := by
      rw [List.foldl_cons, List.foldl_append,
        show componentStep [] [] = [] from rfl,
        foldl_componentStep_plain cs (fun c hc => ⟨(hcs c hc).1, (hcs c hc).2.2⟩)]
      have hlast : cs.getLast? ≠ some ['.', '.'] := by
        intro hl
        exact (hcs _ (List.mem_of_getLast?_eq_some hl)).2.2.2 rfl
      simp [componentStep, hne, hlast]
    simp only [getAbsolutePath, show (['.', '.'] : Str) ≠ [] by decide,
      show (['.', '.'] : Str) ≠ ['~'] by decide, show (['.', '.'] : Str) ≠ ['-'] by decide,
      if_false]
    rw [resolveGeneral_eq_absPath, htok, hfold]
  have hpar : getParentPath nav.current_path = absPath cs.dropLast := by
    obtain ⟨c, hc⟩ : ∃ c, cs.getLast? = some c := by
      cases h : cs.getLast? with
      | none => exact absurd (List.getLast?_eq_none_iff.1 h) hne
      | some c => exact ⟨c, rfl⟩
    have hmem := List.mem_of_getLast?_eq_some hc
    have hsplit : cs = cs.dropLast ++ [c] := by
      have := List.dropLast_append_getLast? c hc
      exact this.symm
    rw [hcur]
    conv_lhs => rw [hsplit]
    exact getParentPath_slashJoin_concat _ c (hcs c hmem).2.1 (hcs c hmem).1
  refine ⟨by rw [hres, hpar], hres, ?_⟩
  intro hab
  rw [hres, ← hpar, hab]
  rfl

/-- C9 at the current path `/a/b`: the parent is `/a`. -/
theorem getAbsolutePath_dotdot_parent_witness :
    getAbsolutePath (setCurrentPath sampleNav "/a/b".toList) [] ['.', '.']
      = getParentPath "/a/b".toList ∧
    getAbsolutePath (setCurrentPath sampleNav "/a/b".toList) [] ['.', '.'] = "/a".toList :=
  ⟨(getAbsolutePath_dotdot_parent (setCurrentPath sampleNav "/a/b".toList) []
      ["a".toList, "b".toList] (by decide) (by decide) (by decide)).1,
   (getAbsolutePath_dotdot_parent (setCurrentPath sampleNav "/a/b".toList) []
      ["a".toList, "b".toList] (by decide) (by decide) (by decide)).2.2 (by decide)⟩

/-! ## Ascending past the root -/

theorem componentStep_head_dotdot (comps : List Str) (t : Str)
    (h : comps.head? = some ['.', '.']) :
    (componentStep comps t).head? = some ['.', '.'] := by
  cases comps with
  | nil => simp at h
  | cons c tl =>
    simp only [List.head?_cons, Option.some.injEq] at h
    subst h
    unfold componentStep
    split
    · rfl
    · split
      · split
        · rename_i hc
          cases tl with
          | nil => simp at hc
          | cons b tl => simp [List.dropLast]
        · split
          · rename_i hc; simp at hc
          · rfl
      · simp

theorem foldl_componentStep_head_dotdot (ts : List Str) :
    ∀ comps : List Str, comps.head? = some ['.', '.'] →
      (ts.foldl componentStep comps).head? = some ['.', '.'] := by
  induction ts with
  | nil => intro comps h; simpa using h
  | cons t ts ih =>
    intro comps h
    rw [List.foldl_cons]
    exact ih _ (componentStep_head_dotdot comps t h)

/-- C10. Ascending past the root is preserved, not clamped: resolving `..` against the current
path `/` gives `/..`; and for every input other than the empty string, `~` and `-` whose token
sequence meets a `..` while the component stack is empty (the tokens before it leave the stack
empty), the result keeps `..` as its first segment after the leading `/`, so it is not `/`. -/
theorem getAbsolutePath_dotdot_past_root (nav : Navigator) (home path : Str)
    (pre post : List Str) :
    (nav.current_path = ['/'] → getAbsolutePath nav home ['.', '.'] = "/..".toList) ∧
    (path ≠ [] → path ≠ ['~'] → path ≠ ['-'] →
      getlines '/' (joinedPath nav.current_path path) = pre ++ [['.', '.']] ++ post →
      pre.foldl componentStep [] = [] →
      (∃ more, segments (getAbsolutePath nav home path) = [] :: ['.', '.'] :: more) ∧
        getAbsolutePath nav home path ≠ ['/']) := by
  constructor
  · intro hcur
    simp only [getAbsolutePath, show (['.', '.'] : Str) ≠ [] by decide,
      show (['.', '.'] : Str) ≠ ['~'] by decide, show (['.', '.'] : Str) ≠ ['-'] by decide,
      if_false, hcur]
    rfl
  · intro h1 h2 h3 htok hpre
    have hgood := foldl_componentStep_good (getlines '/' (joinedPath nav.current_path path))
      (getlines_no_delim '/' _) [] (by simp)
    have hhead : ((getlines '/' (joinedPath nav.current_path path)).foldl
        componentStep []).head? = some ['.', '.'] := by
      rw [htok, List.foldl_append, List.foldl_append, hpre]
      exact foldl_componentStep_head_dotdot post _ rfl
    simp only [getAbsolutePath, h1, h2, h3, if_false]
    rw [resolveGeneral_eq_absPath]
    cases hc : (getlines '/' (joinedPath nav.current_path path)).foldl componentStep [] with
    | nil => simp [hc] at hhead
    | cons c more =>
      rw [hc] at hhead hgood
      simp only [List.head?_cons, Option.some.injEq] at hhead
      subst hhead
      have habs : absPath (['.', '.'] :: more) = slashJoin (['.', '.'] :: more) := by
        simp [absPath]
      rw [habs]
      refine ⟨⟨more, segments_slashJoin _ (fun d hd => (hgood d hd).2.1)⟩, ?_⟩
      simp [slashJoin]

/-- C10 at the input `..` against the current path `/`, and at the input `/../x`. -/
theorem getAbsolutePath_dotdot_past_root_witness :
    getAbsolutePath (setCurrentPath sampleNav ['/']) [] ['.', '.'] = "/..".toList ∧
    ((∃ more, segments (getAbsolutePath sampleNav [] "/../x".toList)
        = [] :: ['.', '.'] :: more) ∧
      getAbsolutePath sampleNav [] "/../x".toList ≠ ['/']) ∧
    getAbsolutePath sampleNav [] "/../x".toList = "/../x".toList :=
  ⟨(getAbsolutePath_dotdot_past_root (setCurrentPath sampleNav ['/']) [] [] [] []).1 rfl,
   (getAbsolutePath_dotdot_past_root sampleNav [] "/../x".toList [[]] ["x".toList]).2
      (by decide) (by decide) (by decide) (by decide) (by decide),
   by decide⟩

/-! ## The loop of `normalizePath` ends within its fuel -/

theorem find_some_le (pat : Str) (s : Str) :
    ∀ pos, find pat s = some pos → pos + pat.length ≤ s.length := by
  induction s with
  | nil =>
    intro pos h
    by_cases hp : pat = []
    · simp [find, hp] at h
      simp [hp, ← h]
    · simp [find, hp] at h
  | cons c cs ih =>
    intro pos h
    unfold find at h
    by_cases hb : pat.isPrefixOf (c :: cs) = true
    · rw [if_pos hb] at h
      have hl := (List.isPrefixOf_iff_prefix.1 hb).length_le
      simp only [Option.some.injEq] at h
      omega
    · rw [if_neg hb] at h
      cases hq : find pat cs with
      | none => simp [hq] at h
      | some q =>
        simp [hq] at h
        have := ih q hq
        simp only [List.length_cons]
        omega

theorem collapseSlashes_done (fuel : Nat) :
    ∀ s : Str, s.length ≤ fuel → find ['/', '/'] (collapseSlashes fuel s) = none := by
  induction fuel with
  | zero =>
    intro s hs
    have : s = [] := List.length_eq_zero.1 (by omega)
    subst this
    rfl
  | succ n ih =>
    intro s hs
    unfold collapseSlashes
    cases hf : find ['/', '/'] s with
    | none => simpa using hf
    | some pos =>
      have hle := find_some_le _ s pos hf
      simp only [List.length_cons, List.length_nil] at hle
      apply ih
      simp only [replace, List.length_append, List.length_take, List.length_drop,
        List.length_cons, List.length_nil]
      omega

/-- The loop of `normalizePath` stops because no `//` is left, not because the fuel ran out. -/
theorem normalizePath_loop_exits (path : Str) :
    find ['/', '/'] (collapseSlashes path.length path) = none :=
  collapseSlashes_done path.length path (Nat.le_refl _)

/-! ## `normalizePath` against its reference definition -/

theorem collapseRuns_of_noDoubleSlash (s : Str) (h : NoDoubleSlash s) : collapseRuns s = s := by
  induction s with
  | nil => rfl
  | cons c cs ih =>
    have h2 := (noDoubleSlash_cons c cs).1 h
    simp [collapseRuns, h2.1, ih h2.2]

theorem noDoubleSlash_of_find_eq_none (s : Str) (h : find ['/', '/'] s = none) :
    NoDoubleSlash s := by
  induction s with
  | nil => simp [NoDoubleSlash]
  | cons c cs ih =>
    unfold find at h
    by_cases hb : (['/', '/'] : Str).isPrefixOf (c :: cs) = true
    · simp [hb] at h
    · rw [if_neg hb] at h
      have hcs : find ['/', '/'] cs = none := by
        cases hq : find ['/', '/'] cs with
        | none => rfl
        | some q => simp [hq] at h
      rw [noDoubleSlash_cons]
      refine ⟨?_, ih hcs⟩
      intro hp
      exact hb (List.isPrefixOf_iff_prefix.2 ((doubleSlash_prefix_iff c cs).2 hp))

theorem collapseRuns_replace (s : Str) :
    ∀ pos, find ['/', '/'] s = some pos →
      collapseRuns (replace s pos 2 ['/']) = collapseRuns s := by
  induction s with
  | nil => intro pos h; simp [find] at h
  | cons c cs ih =>
    intro pos h
    unfold find at h
    by_cases hb : (['/', '/'] : Str).isPrefixOf (c :: cs) = true
    · rw [if_pos hb] at h
      simp only [Option.some.injEq] at h
      subst h
      have hp := (doubleSlash_prefix_iff c cs).1 (List.isPrefixOf_iff_prefix.1 hb)
      obtain ⟨hc, hh⟩ := hp
      subst hc
      cases cs with
      | nil => simp at hh
      | cons d ds =>
        simp only [List.head?_cons, Option.some.injEq] at hh
        subst hh
        simp [replace, collapseRuns]
    · rw [if_neg hb] at h
      cases hq : find ['/', '/'] cs with
      | none => simp [hq] at h
      | some q =>
        simp [hq] at h
        subst h
        have hnp : ¬ (c = '/' ∧ cs.head? = some '/') := fun hp =>
          hb (List.isPrefixOf_iff_prefix.2 ((doubleSlash_prefix_iff c cs).2 hp))
        have hrep : replace (c :: cs) (q + 1) 2 ['/'] = c :: replace cs q 2 ['/'] := by
          simp [replace, Nat.add_right_comm]
        have hhead : (replace cs q 2 ['/']).head? = cs.head? := by
          cases q with
          | zero =>
            have hp := List.isPrefixOf_iff_prefix.1
              (by
                cases cs with
                | nil => simp [find] at hq
                | cons d ds =>
                  unfold find at hq
                  by_cases hb2 : (['/', '/'] : Str).isPrefixOf (d :: ds) = true
                  · exact hb2
                  · rw [if_neg hb2] at hq
                    cases hq2 : find ['/', '/'] ds with
                    | none => simp [hq2] at hq
                    | some r => simp [hq2] at hq :
                (['/', '/'] : Str).isPrefixOf cs = true)
            obtain ⟨t, ht⟩ := hp
            subst ht
            simp [replace]
          | succ r =>
            cases cs with
            | nil => simp [find] at hq
            | cons d ds => simp [replace]
        rw [hrep]
        have e1 : collapseRuns (c :: replace cs q 2 ['/'])
            = c :: collapseRuns (replace cs q 2 ['/']) := by
          simp [collapseRuns, hhead, hnp]
        have e2 : collapseRuns (c :: cs) = c :: collapseRuns cs := by
          simp [collapseRuns, hnp]
        rw [e1, e2, ih q hq]

theorem collapseSlashes_eq_collapseRuns (fuel : Nat) :
    ∀ s : Str, s.length ≤ fuel → collapseSlashes fuel s = collapseRuns s := by
  induction fuel with
  | zero =>
    intro s hs
    have : s = [] := List.length_eq_zero.1 (by omega)
    subst this
    rfl
  | succ n ih =>
    intro s hs
    unfold collapseSlashes
    cases hf : find ['/', '/'] s with
    | none =>
      exact (collapseRuns_of_noDoubleSlash s (noDoubleSlash_of_find_eq_none s hf)).symm
    | some pos =>
      have hle := find_some_le _ s pos hf
      simp only [List.length_cons, List.length_nil] at hle
      have hlen : (replace s pos 2 ['/']).length ≤ n := by
        simp only [replace, List.length_append, List.length_take, List.length_drop,
          List.length_cons, List.length_nil]
        omega
      simp only
      rw [ih _ hlen, collapseRuns_replace s pos hf]

theorem normalizePath_eq_normalizeRef (s : Str) : normalizePath s = normalizeRef s := by
  unfold normalizePath normalizeRef
  simp only [collapseSlashes_eq_collapseRuns s.length s (Nat.le_refl _)]

theorem normalizePath_noDoubleSlash (s : Str) : NoDoubleSlash (normalizePath s) := by
  have hn : NoDoubleSlash (collapseSlashes s.length s) :=
    noDoubleSlash_of_find_eq_none _ (normalizePath_loop_exits s)
  unfold normalizePath
  simp only
  split
  · intro hi
    exact hn (hi.trans (List.dropLast_prefix _).isInfix)
  · exact hn

theorem normalizePath_getLast? (s : Str) :
    (normalizePath s).getLast? ≠ some '/' ∨ normalizePath s = ['/'] := by
  have hn : NoDoubleSlash (collapseSlashes s.length s) :=
    noDoubleSlash_of_find_eq_none _ (normalizePath_loop_exits s)
  unfold normalizePath
  simp only
  generalize collapseSlashes s.length s = t at hn
  split
  · rename_i hc
    left
    intro hl
    obtain ⟨hlen, hlast⟩ := hc
    -- t = u ++ ['/'], and u ends in '/' as well, so t contains "//"
    obtain ⟨u, hu⟩ : ∃ u, t = u ++ ['/'] := by
      have := List.dropLast_append_getLast? '/' hlast
      exact ⟨t.dropLast, this.symm⟩
    subst hu
    simp only [List.dropLast_concat] at hl
    obtain ⟨v, hv⟩ : ∃ v, u = v ++ ['/'] := by
      have := List.dropLast_append_getLast? '/' hl
      exact ⟨u.dropLast, this.symm⟩
    subst hv
    exact hn ⟨v, [], by simp⟩
  · rename_i hc
    by_cases hl : t.getLast? = some '/'
    · right
      have hlen : t.length ≤ 1 := by
        by_contra hgt
        exact hc ⟨by omega, hl⟩
      cases t with
      | nil => simp at hl
      | cons a r =>
        cases r with
        | nil => simpa using hl
        | cons b r => simp at hlen
    · exact Or.inl hl

/-- C11. `normalizePath` equals its reference definition for every string (every maximal run
of consecutive `/` replaced by one `/`, then one trailing `/` removed if the collapsed string
is longer than one character); its result never contains `//` and never ends in `/` unless it
is exactly `/`; and `normalizePath "/a//b/" = "/a/b"`, `normalizePath "/" = "/"`. -/
theorem normalizePath_reference (s : Str) :
    normalizePath s = normalizeRef s ∧
    NoDoubleSlash (normalizePath s) ∧
    ((normalizePath s).getLast? ≠ some '/' ∨ normalizePath s = ['/']) ∧
    normalizePath "/a//b/".toList = "/a/b".toList ∧
    normalizePath "/".toList = "/".toList :=
  ⟨normalizePath_eq_normalizeRef s, normalizePath_noDoubleSlash s, normalizePath_getLast? s,
    by decide, by decide⟩

/-! ## `globToRegex` -/

theorem globToRegexStep_eq (regex : Str) (c : Char) :
    globToRegexStep regex c = regex ++ globImage c := by
  unfold globToRegexStep globImage
  by_cases h1 : c = '*'
  · simp [h1]
  · by_cases h2 : c = '?'
    · simp [h2]
    · by_cases h3 : c ∈ regexMetaChars
      · have h3b := h3
        simp only [regexMetaChars, List.mem_cons, List.mem_singleton, List.not_mem_nil,
          or_false] at h3b
        simp [h1, h2, h3, h3b]
      · have h3b := h3
        simp only [regexMetaChars, List.mem_cons, List.mem_singleton, List.not_mem_nil,
          or_false] at h3b
        simp [h1, h2, h3, h3b]

theorem foldl_globToRegexStep (p : Str) :
    ∀ acc : Str, p.foldl globToRegexStep acc = acc ++ (p.map globImage).flatten := by
  induction p with
  | nil => intro acc; simp
  | cons c cs ih =>
    intro acc
    rw [List.foldl_cons, ih, globToRegexStep_eq]
    simp

/-- C12. `globToRegex` is the character-wise translation for every pattern: the output is the
concatenation, in order, of the images of the characters (`*` gives `.*`, `?` gives `.`, each
of `. ^ $ + ( ) [ ] { } | \` gives a backslash and the character, anything else itself); so
it distributes over concatenation, and `globToRegex "*.txt"` is `.*\.txt`. -/
theorem globToRegex_characterwise (a b : Str) :
    globToRegex a = (a.map globImage).flatten ∧
    globToRegex (a ++ b) = globToRegex a ++ globToRegex b ∧
    globToRegex "*.txt".toList = ".*\\.txt".toList := by
  have h : ∀ p : Str, globToRegex p = (p.map globImage).flatten := by
    intro p
    unfold globToRegex
    rw [foldl_globToRegexStep]
    simp
  refine ⟨h a, ?_, by decide⟩
  rw [h, h, h]
  simp

/-! ## The walk against its reference definition -/

theorem skipsName_congr (c : SearchCriteria) (name : Str) :
    skipsName { defaultCriteria with include_hidden := c.include_hidden } name
      = skipsName c name := rfl

mutual
theorem searchInDirectory_eq (lib : RegexLib) (c : SearchCriteria) (p : Str) :
    ∀ (dir : Option (List DirEntry)) (w : Walk),
      searchInDirectory lib c p dir w
        = { results := w.results ++ walk lib c p dir
            opened := w.opened ++ opens c.recursive c.include_hidden p dir }
  | none, w => by simp [searchInDirectory, walk, opens]
  | some entries, w => by
    rw [searchInDirectory, readdirLoop_eq lib c p entries]
    simp [walk, opens]
theorem readdirLoop_eq (lib : RegexLib) (c : SearchCriteria) (p : Str) :
    ∀ (entries : List DirEntry) (w : Walk),
      readdirLoop lib c p entries w
        = { results := w.results ++ walkEntries lib c p entries
            opened := w.opened ++ opensEntries c.recursive c.include_hidden p entries }
  | [], w => by simp [readdirLoop, walkEntries, opensEntries]
  | entry :: rest, w => by
    rw [readdirLoop, visitEntry_eq lib c p entry, readdirLoop_eq lib c p rest]
    simp [walkEntries, opensEntries]
theorem visitEntry_eq (lib : RegexLib) (c : SearchCriteria) (p : Str) :
    ∀ (entry : DirEntry) (w : Walk),
      visitEntry lib c p entry w
        = { results := w.results ++ walkEntry lib c p entry
            opened := w.opened ++ opensEntry c.recursive c.include_hidden p entry }
  | .mk name stat content dir, w => by
    unfold visitEntry walkEntry opensEntry
    rw [skipsName_congr]
    by_cases hs : skipsName c name = true
    · simp [hs]
    · simp only [hs, if_false, Bool.false_eq_true]
      cases stat with
      | none => simp
      | some st =>
        simp only
        by_cases hr : c.recursive = true ∧ st.kind = FileKind.directory
        · rw [if_pos hr, if_pos hr, if_pos hr, searchInDirectory_eq lib c _ dir]
          generalize matchesCriteria lib (p ++ ['/'] ++ name) st c = m
          cases m <;> simp
        · rw [if_neg hr, if_neg hr, if_neg hr]
          generalize matchesCriteria lib (p ++ ['/'] ++ name) st c = m
          cases m <;> simp
end

theorem findFiles_eq_walk (lib : RegexLib) (c : SearchCriteria) (root : Str)
    (dir : Option (List DirEntry)) : findFiles lib c root dir = walk lib c root dir := by
  simp [findFiles, findFilesWalk, searchInDirectory_eq]

theorem findFilesWalk_opened (lib : RegexLib) (c : SearchCriteria) (root : Str)
    (dir : Option (List DirEntry)) :
    (findFilesWalk lib c root dir).opened = opens c.recursive c.include_hidden root dir := by
  simp [findFilesWalk, searchInDirectory_eq]

/-! ## Matching a name and the criteria -/

/-- C13, as the code behaves: it is not the case that the glob `*.txt`, matched without regard
to case, accepts `Report.TXT` and rejects `report.txtx`. -/
theorem glob_txt_does_not_reject_txtx :
    ¬ (matchesNamePattern ecmaFragment "Report.TXT".toList globTxtCriteria = true ∧
       matchesNamePattern ecmaFragment "report.txtx".toList globTxtCriteria = false) := by
  decide

/-- C13, amended. With `name_pattern = "*.txt"`, `use_regex = false` and
`case_sensitive = false` the pattern is translated to `.*\.txt` and searched for anywhere in
the name, so `matchesNamePattern` accepts `Report.TXT` and accepts `report.txtx` as well; it
rejects `report.tx`, which contains no `.txt`. -/
theorem glob_txt_search_is_unanchored :
    globTxtCriteria.name_pattern = "*.txt".toList ∧
    globTxtCriteria.use_regex = false ∧
    globTxtCriteria.case_sensitive = false ∧
    globToRegex globTxtCriteria.name_pattern = ".*\\.txt".toList ∧
    matchesNamePattern ecmaFragment "Report.TXT".toList globTxtCriteria = true ∧
    matchesNamePattern ecmaFragment "report.txtx".toList globTxtCriteria = true ∧
    matchesNamePattern ecmaFragment "report.tx".toList globTxtCriteria = false := by
  decide

theorem find_last_of_eq_none (ch : Char) (s : Str) (h : ch ∉ s) : find_last_of ch s = none := by
  induction s with
  | nil => rfl
  | cons a s ih =>
    simp only [List.mem_cons, not_or] at h
    have ha : ¬ a = ch := fun e => h.1 e.symm
    simp [find_last_of, ih h.2, ha]

theorem baseName_of_no_slash (s : Str) (h : '/' ∉ s) : baseName s = s := by
  unfold baseName
  have : s.reverse.takeWhile (fun c => c != '/') = s.reverse := by
    rw [List.takeWhile_eq_self_iff]
    intro x hx
    have hx2 : x ∈ s := List.mem_reverse.1 hx
    simp only [bne_iff_ne, ne_eq]
    intro e
    exact h (e ▸ hx2)
  rw [this, List.reverse_reverse]

theorem baseName_append (pre c : Str) (hc : '/' ∉ c) : baseName (pre ++ '/' :: c) = c := by
  unfold baseName
  have hrev : (pre ++ '/' :: c).reverse = c.reverse ++ '/' :: pre.reverse := by simp
  rw [hrev, List.takeWhile_append_of_pos]
  · simp
  · intro x hx
    have hx2 : x ∈ c := List.mem_reverse.1 hx
    simp only [bne_iff_ne, ne_eq]
    intro e
    exact hc (e ▸ hx2)

theorem exists_last_slash (s : Str) (h : '/' ∈ s) :
    ∃ pre c, s = pre ++ '/' :: c ∧ '/' ∉ c := by
  induction s with
  | nil => simp at h
  | cons a s ih =>
    by_cases hs : '/' ∈ s
    · obtain ⟨pre, c, e, hc⟩ := ih hs
      exact ⟨a :: pre, c, by simp [e], hc⟩
    · have ha : a = '/' := by
        rcases List.mem_cons.1 h with e | e
        · exact e.symm
        · exact absurd e hs
      exact ⟨[], s, by simp [ha], hs⟩

/-- The name that `matchesCriteria` cuts out of the path is the name after the last `/`. -/
theorem entryName_eq_baseName (path : Str) : entryName path = baseName path := by
  by_cases h : '/' ∈ path
  · obtain ⟨pre, c, e, hc⟩ := exists_last_slash path h
    subst e
    rw [baseName_append pre c hc]
    unfold entryName
    rw [find_last_of_append '/' pre c hc]
    simp
  · rw [baseName_of_no_slash path h]
    unfold entryName
    rw [find_last_of_eq_none '/' path h]
    simp

/-- C14. `matchesCriteria` is the conjunction of its sub-predicates: for every entry (its size
is a natural number, so non-negative) it returns true iff (`name_pattern` is empty or the name
after the last `/` of the path matches the pattern) and `min_size <= size <= max_size` and (`modified_after <= 0` or `mtime >= modified_after`) and
(`modified_before <= 0` or `mtime <= modified_before`); `content_pattern` and `search_content`
play no part in the decision. -/
theorem matchesCriteria_conjunction (lib : RegexLib) (path : Str) (file_stat : Stat)
    (criteria : SearchCriteria) (content_pattern : Str) (search_content : Bool) :
    (matchesCriteria lib path file_stat criteria = true ↔
      (criteria.name_pattern = [] ∨
        matchesNamePattern lib (baseName path) criteria = true) ∧
      criteria.min_size ≤ file_stat.st_size ∧ file_stat.st_size ≤ criteria.max_size ∧
      (criteria.modified_after ≤ 0 ∨ file_stat.st_mtime ≥ criteria.modified_after) ∧
      (criteria.modified_before ≤ 0 ∨ file_stat.st_mtime ≤ criteria.modified_before)) ∧
    matchesCriteria lib path file_stat
        { criteria with content_pattern := content_pattern, search_content := search_content }
      = matchesCriteria lib path file_stat criteria := by
  constructor
  · unfold matchesCriteria
    rw [entryName_eq_baseName]
    simp only
    by_cases h1 : criteria.name_pattern ≠ [] ∧
        matchesNamePattern lib (baseName path) criteria = false
    · rw [if_pos h1]
      simp only [Bool.false_eq_true, false_iff, not_and]
      intro hn
      rcases hn with hn | hn
      · exact absurd hn h1.1
      · rw [h1.2] at hn; exact absurd hn (by decide)
    · rw [if_neg h1]
      have hname : criteria.name_pattern = [] ∨
          matchesNamePattern lib (baseName path) criteria = true := by
        by_cases he : criteria.name_pattern = []
        · exact Or.inl he
        · right
          cases hm : matchesNamePattern lib (baseName path) criteria with
          | true => rfl
          | false => exact absurd ⟨he, hm⟩ h1
      by_cases h2 : file_stat.st_size < criteria.min_size ∨
          file_stat.st_size > criteria.max_size
      · rw [if_pos h2]
        simp only [Bool.false_eq_true, false_iff]
        rintro ⟨-, ha, hb, -⟩
        omega
      · rw [if_neg h2]
        by_cases h3 : criteria.modified_after > 0 ∧
            file_stat.st_mtime < criteria.modified_after
        · rw [if_pos h3]
          simp only [Bool.false_eq_true, false_iff]
          rintro ⟨-, -, -, hc, -⟩
          omega
        · rw [if_neg h3]
          by_cases h4 : criteria.modified_before > 0 ∧
              file_stat.st_mtime > criteria.modified_before
          · rw [if_pos h4]
            simp only [Bool.false_eq_true, false_iff]
            rintro ⟨-, -, -, -, hd⟩
            omega
          · rw [if_neg h4]
            simp only [true_iff]
            refine ⟨hname, by omega, by omega, by omega, by omega⟩
  · rfl

/-! ## Searching the lines of a file -/

theorem scanLines_eq (pattern : Str → Bool) (lines : List Str) :
    ∀ (n : Nat) (found : List (Nat × Str)),
      scanLines pattern lines n found
        = found ++ (lines.enumFrom n).filter (fun p => pattern p.2) := by
  induction lines with
  | nil => intro n found; simp [scanLines]
  | cons line rest ih =>
    intro n found
    rw [scanLines, ih]
    cases hp : pattern line <;> simp [List.filter_cons, hp]

theorem enumFrom_filter_increasing (pattern : Str → Bool) (lines : List Str) (n : Nat) :
    (((lines.enumFrom n).filter (fun p => pattern p.2)).map Prod.fst).Pairwise (· < ·) := by
  have hsub : (((lines.enumFrom n).filter (fun p => pattern p.2)).map Prod.fst).Sublist
      ((lines.enumFrom n).map Prod.fst) := List.Sublist.map _ (List.filter_sublist _)
  rw [List.enumFrom_map_fst] at hsub
  exact List.Pairwise.sublist hsub (List.pairwise_lt_range' n lines.length)

/-- C20. For a file that can be opened, with lines `l1..ln`, and a content pattern that
compiles, `searchInFile` returns exactly the pairs `(i, li)`, `i` counted from 1, whose line
the pattern matches somewhere, in strictly increasing order of `i`; it returns the empty list
when the file cannot be opened or the pattern does not compile. -/
theorem searchInFile_spec (lib : RegexLib) (criteria : SearchCriteria) (text : Str) :
    (∀ pattern, lib.compile criteria.content_pattern (!criteria.case_sensitive) = some pattern →
      searchInFile lib (some text) criteria
          = ((getlines '\n' text).enumFrom 1).filter (fun p => pattern p.2) ∧
        ((searchInFile lib (some text) criteria).map Prod.fst).Pairwise (· < ·)) ∧
    searchInFile lib none criteria = [] ∧
    (lib.compile criteria.content_pattern (!criteria.case_sensitive) = none →
      searchInFile lib (some text) criteria = []) := by
  refine ⟨?_, rfl, ?_⟩
  · intro pattern hp
    have h : searchInFile lib (some text) criteria
        = ((getlines '\n' text).enumFrom 1).filter (fun p => pattern p.2) := by
      simp [searchInFile, hp, scanLines_eq]
    exact ⟨h, h ▸ enumFrom_filter_increasing pattern _ 1⟩
  · intro hp
    simp [searchInFile, hp]

/-- C20 on the pattern `TODO` and a file of three lines whose only matching line is line 2,
and on the pattern `*`, which does not compile (nothing to repeat). -/
theorem searchInFile_spec_witness :
    getlines '\n' todoFile = ["int x;".toList, "// TODO: fix".toList, "return x;".toList] ∧
    searchInFile ecmaFragment (some todoFile) todoCriteria = [(2, "// TODO: fix".toList)] ∧
    searchInFile ecmaFragment (some todoFile)
      { todoCriteria with content_pattern := "*".toList } = [] :=
  ⟨by decide,
   ((searchInFile_spec ecmaFragment todoCriteria todoFile).1
      (reSearch false [⟨ReAtom.char 'T', false⟩, ⟨ReAtom.char 'O', false⟩,
        ⟨ReAtom.char 'D', false⟩, ⟨ReAtom.char 'O', false⟩]) rfl).1.trans (by decide),
   (searchInFile_spec ecmaFragment { todoCriteria with content_pattern := "*".toList }
      todoFile).2.2 rfl⟩

/-! ## The results of the walk and the entries it reaches -/

theorem reaches_mono {c : SearchCriteria} {p full : Str} {es es' : List DirEntry}
    {e : DirEntry} (h : Reaches c p es full e) (hsub : ∀ x ∈ es, x ∈ es') :
    Reaches c p es' full e := by
  cases h with
  | here hm hs => exact Reaches.here (hsub _ hm) hs
  | inside hm hs hst hk hd hr => exact Reaches.inside (hsub _ hm) hs hst hk hd hr

theorem reports_mono {lib : RegexLib} {c : SearchCriteria} {p : Str} {es es' : List DirEntry}
    {r : SearchResult} (h : Reports lib c p es r) (hsub : ∀ x ∈ es, x ∈ es') :
    Reports lib c p es' r := by
  obtain ⟨full, e, st, hr, hst, hm, hres⟩ := h
  exact ⟨full, e, st, reaches_mono hr hsub, hst, hm, hres⟩

mutual
theorem mem_walk_reports (lib : RegexLib) (c : SearchCriteria) :
    ∀ (dir : Option (List DirEntry)) (p : Str) (r : SearchResult),
      r ∈ walk lib c p dir → ∃ es, dir = some es ∧ Reports lib c p es r
  | none, p, r, h => by simp [walk] at h
  | some es, p, r, h =>
    ⟨es, rfl, mem_walkEntries_reports lib c es p r (by simpa [walk] using h)⟩
theorem mem_walkEntries_reports (lib : RegexLib) (c : SearchCriteria) :
    ∀ (es : List DirEntry) (p : Str) (r : SearchResult),
      r ∈ walkEntries lib c p es → Reports lib c p es r
  | [], p, r, h => by simp [walkEntries] at h
  | e :: rest, p, r, h => by
    rw [walkEntries] at h
    rcases List.mem_append.1 h with h1 | h2
    · exact reports_mono (mem_walkEntry_reports lib c e p r h1) (by simp)
    · exact reports_mono (mem_walkEntries_reports lib c rest p r h2)
        (fun x hx => List.mem_cons_of_mem _ hx)
theorem mem_walkEntry_reports (lib : RegexLib) (c : SearchCriteria) :
    ∀ (e : DirEntry) (p : Str) (r : SearchResult),
      r ∈ walkEntry lib c p e → Reports lib c p [e] r
  | .mk name stat content dir, p, r, h => by
    unfold walkEntry at h
    by_cases hs : skipsName c name = true
    · simp [hs] at h
    · have hs' : skipsName c name = false := by simpa using hs
      simp only [hs, if_false, Bool.false_eq_true] at h
      cases stat with
      | none => simp at h
      | some st =>
        simp only at h
        rcases List.mem_append.1 h with h1 | h2
        · by_cases hm : matchesCriteria lib (p ++ ['/'] ++ name) st c = true
          · rw [if_pos hm] at h1
            simp only [List.mem_singleton] at h1
            exact ⟨p ++ ['/'] ++ name, .mk name (some st) content dir, st,
              Reaches.here (List.mem_singleton.2 rfl) hs', rfl, hm, h1⟩
          · rw [if_neg hm] at h1
            simp at h1
        · by_cases hr : c.recursive = true ∧ st.kind = FileKind.directory
          · rw [if_pos hr] at h2
            obtain ⟨sub, hsub, full, e, st2, hreach, hst2, hm2, hres⟩ :=
              mem_walk_reports lib c dir (p ++ ['/'] ++ name) r h2
            exact ⟨full, e, st2,
              Reaches.inside (d := .mk name (some st) content dir) (List.mem_singleton.2 rfl)
                hs' rfl hr.2 hsub hreach, hst2, hm2, hres⟩
          · rw [if_neg hr] at h2
            simp at h2
end

theorem mem_walkEntries_of_mem (lib : RegexLib) (c : SearchCriteria) (p : Str)
    (r : SearchResult) (e : DirEntry) :
    ∀ es : List DirEntry, e ∈ es → r ∈ walkEntry lib c p e → r ∈ walkEntries lib c p es := by
  intro es
  induction es with
  | nil => intro h; simp at h
  | cons x xs ih =>
    intro h hr
    rw [walkEntries]
    rcases List.mem_cons.1 h with h1 | h1
    · subst h1
      exact List.mem_append_left _ hr
    · exact List.mem_append_right _ (ih h1 hr)

theorem reaches_mem_walkEntries (lib : RegexLib) (c : SearchCriteria)
    (hrec : c.recursive = true) {p full : Str} {es : List DirEntry} {e : DirEntry}
    (h : Reaches c p es full e) :
    ∀ st, e.stat = some st → matchesCriteria lib full st c = true →
      makeResult lib c full e.name st e.content ∈ walkEntries lib c p es := by
  induction h with
  | @here p es e hm hs =>
    intro st hst hmatch
    apply mem_walkEntries_of_mem lib c p _ e es hm
    cases e with
    | mk name stat content dir =>
      simp only [DirEntry.name, DirEntry.stat, DirEntry.content] at hs hst hmatch ⊢
      subst hst
      unfold walkEntry
      simp only [hs, if_false, Bool.false_eq_true]
      apply List.mem_append_left
      rw [if_pos hmatch]
      exact List.mem_singleton.2 rfl
  | @inside p es sub d e dst full hm hs hst hk hd _ ih =>
    intro st hst2 hmatch
    apply mem_walkEntries_of_mem lib c p _ d es hm
    have hin := ih st hst2 hmatch
    cases d with
    | mk name stat content dir =>
      simp only [DirEntry.name, DirEntry.stat, DirEntry.dir] at hs hst hd hin
      subst hst
      subst hd
      unfold walkEntry
      simp only [hs, if_false, Bool.false_eq_true]
      apply List.mem_append_right
      rw [if_pos ⟨hrec, hk⟩]
      simpa [walk] using hin

/-! ## A name pattern that does not compile -/

/-- C15. Fail-closed on a bad name pattern: when `use_regex` is set and the (non-empty; the
empty pattern always compiles) `name_pattern` does not compile, `matchesNamePattern` returns
false for every entry name, `findFiles` over any directory tree returns the empty list, and the
walk still opens the same directories as any search with the same `recursive` and
`include_hidden` settings. -/
theorem bad_name_pattern_fails_closed (lib : RegexLib) (c : SearchCriteria) (root : Str)
    (dir : Option (List DirEntry)) (huse : c.use_regex = true) (hne : c.name_pattern ≠ [])
    (hbad : lib.compile c.name_pattern (!c.case_sensitive) = none) :
    (∀ name, matchesNamePattern lib name c = false) ∧
    findFiles lib c root dir = [] ∧
    (∀ (lib2 : RegexLib) (c2 : SearchCriteria), c2.recursive = c.recursive →
      c2.include_hidden = c.include_hidden →
      (findFilesWalk lib c root dir).opened = (findFilesWalk lib2 c2 root dir).opened) := by
  have hname : ∀ name, matchesNamePattern lib name c = false := by
    intro name
    simp [matchesNamePattern, huse, hbad]
  refine ⟨hname, ?_, ?_⟩
  · rw [findFiles_eq_walk, List.eq_nil_iff_forall_not_mem]
    intro r hr
    obtain ⟨es, -, full, e, st, -, -, hm, -⟩ := mem_walk_reports lib c dir root r hr
    have hfalse : matchesCriteria lib full st c = false := by
      unfold matchesCriteria
      simp only
      rw [if_pos ⟨hne, hname _⟩]
    rw [hfalse] at hm
    exact absurd hm (by decide)
  · intro lib2 c2 h1 h2
    rw [findFilesWalk_opened, findFilesWalk_opened, h1, h2]

/-- C15 on the pattern `(` and the tree `/root/{a.txt, sub/{b.txt}}`: no result, and both
directories are opened. -/
theorem bad_name_pattern_fails_closed_witness :
    matchesNamePattern ecmaFragment "a.txt".toList badRegexCriteria = false ∧
    findFiles ecmaFragment badRegexCriteria "/root".toList (some sampleTree) = [] ∧
    (findFilesWalk ecmaFragment badRegexCriteria "/root".toList (some sampleTree)).opened
      = ["/root".toList, "/root/sub".toList] :=
  ⟨(bad_name_pattern_fails_closed ecmaFragment badRegexCriteria "/root".toList
      (some sampleTree) rfl (by decide) rfl).1 _,
   (bad_name_pattern_fails_closed ecmaFragment badRegexCriteria "/root".toList
      (some sampleTree) rfl (by decide) rfl).2.1,
   by decide⟩

/-! ## Recursion and matching -/

/-- C16, as the code behaves: the hidden file `.b.txt` is listed in the search root itself, its
metadata probe succeeds and it satisfies `matchesCriteria` for the recursive search `*.txt`,
yet `findFiles` reports nothing, because hidden entries are excluded. -/
theorem hidden_match_is_not_reported :
    DirEntry.mk ".b.txt".toList (some fileStat) (some []) none ∈ hiddenTree ∧
    txtCriteria.recursive = true ∧
    matchesCriteria ecmaFragment "/root/.b.txt".toList fileStat txtCriteria = true ∧
    findFiles ecmaFragment txtCriteria "/root".toList (some hiddenTree) = [] :=
  ⟨List.mem_singleton.2 rfl, rfl, by decide, by decide⟩

/-- C16, amended. Recursion is independent of matching: with `recursive = true`, every entry
that the walk does not skip (not hidden when hidden entries are excluded, not `.` or `..`),
that lies in the root or below directories that are not skipped either, whose metadata probe
succeeds and which satisfies `matchesCriteria` has a result in `findFiles`, with its path,
name and size, whether or not the directories above it satisfy the criteria. -/
theorem reached_match_is_reported (lib : RegexLib) (c : SearchCriteria) (root full : Str)
    (es : List DirEntry) (e : DirEntry) (st : Stat) (hrec : c.recursive = true)
    (hreach : Reaches c root es full e) (hst : e.stat = some st)
    (hmatch : matchesCriteria lib full st c = true) :
    ∃ r ∈ findFiles lib c root (some es),
      r.path = full ∧ r.name = e.name ∧ r.size = st.st_size := by
  refine ⟨makeResult lib c full e.name st e.content, ?_, rfl, rfl, rfl⟩
  rw [findFiles_eq_walk]
  simpa [walk] using reaches_mem_walkEntries lib c hrec hreach st hst hmatch

/-- C16 on the tree `/root/{a.txt, sub/{b.txt}}` searched for `*.txt`: `sub` does not match,
and `b.txt` inside it is reported; the whole result is `a.txt` followed by `sub/b.txt`. -/
theorem reached_match_is_reported_witness :
    matchesCriteria ecmaFragment "/root/sub".toList dirStat txtCriteria = false ∧
    (∃ r ∈ findFiles ecmaFragment txtCriteria "/root".toList (some sampleTree),
      r.path = "/root/sub/b.txt".toList ∧ r.name = "b.txt".toList ∧ r.size = 10) ∧
    (findFiles ecmaFragment txtCriteria "/root".toList (some sampleTree)).map (·.path)
      = ["/root/a.txt".toList, "/root/sub/b.txt".toList] :=
  ⟨by decide,
   reached_match_is_reported ecmaFragment txtCriteria "/root".toList "/root/sub/b.txt".toList
     sampleTree (DirEntry.mk "b.txt".toList (some fileStat) (some []) none) fileStat rfl
     (Reaches.inside
       (d := DirEntry.mk "sub".toList (some dirStat) none
         (some [DirEntry.mk "b.txt".toList (some fileStat) (some []) none]))
       (List.mem_cons_of_mem _ (List.mem_singleton.2 rfl)) (by decide)
       (show _ = some dirStat from rfl) rfl rfl
       (Reaches.here (List.mem_singleton.2 rfl) (by decide)))
     rfl (by decide),
   by decide⟩

/-! ## The order of the results -/

theorem walkEntries_eq_flatten (lib : RegexLib) (c : SearchCriteria) (p : Str)
    (es : List DirEntry) :
    walkEntries lib c p es = (es.map (walkEntry lib c p)).flatten := by
  induction es with
  | nil => simp [walkEntries]
  | cons e rest ih => rw [walkEntries, ih]; simp

theorem walkEntries_append (lib : RegexLib) (c : SearchCriteria) (p : Str)
    (es1 es2 : List DirEntry) :
    walkEntries lib c p (es1 ++ es2) = walkEntries lib c p es1 ++ walkEntries lib c p es2 := by
  simp [walkEntries_eq_flatten]

theorem opensEntries_append (r h : Bool) (p : Str) (es1 es2 : List DirEntry) :
    opensEntries r h p (es1 ++ es2) = opensEntries r h p es1 ++ opensEntries r h p es2 := by
  induction es1 with
  | nil => simp [opensEntries]
  | cons e rest ih => simp [opensEntries, ih]

/-- C17. Pre-order, listing-order results: `findFiles` returns the results of the entries of
the search path in listing order, all results of an entry before those of the entries listed
after it; an entry that is not skipped and whose metadata probe succeeds contributes its own
result, if it matches, with path `dir_path + "/" + name`, its name and the probed size, and
after it the results from inside it, if it is a directory and the search is recursive;
nothing is sorted or removed afterwards. -/
theorem findFiles_preorder (lib : RegexLib) (c : SearchCriteria) (root p : Str)
    (es es2 : List DirEntry) (name : Str) (st : Stat) (content : Option Str)
    (sub : Option (List DirEntry)) :
    findFiles lib c root (some es) = (es.map (walkEntry lib c root)).flatten ∧
    walkEntries lib c p (es ++ es2) = walkEntries lib c p es ++ walkEntries lib c p es2 ∧
    walkEntry lib c p (DirEntry.mk name (some st) content sub)
      = (if skipsName c name = true then []
         else
          (if matchesCriteria lib (p ++ ['/'] ++ name) st c = true then
            [{ path := p ++ ['/'] ++ name
               name := name
               type := typeName st.kind
               size := st.st_size
               content_matches :=
                 if c.search_content = true ∧ st.kind = FileKind.regular then
                   searchInFile lib content c
                 else [] }]
           else []) ++
          (if c.recursive = true ∧ st.kind = FileKind.directory then
            findFiles lib c (p ++ ['/'] ++ name) sub
           else [])) ∧
    (findFiles ecmaFragment defaultCriteria "/root".toList (some sampleTree)).map (·.path)
      = ["/root/a.txt".toList, "/root/sub".toList, "/root/sub/b.txt".toList] := by
  refine ⟨?_, walkEntries_append lib c p es es2, ?_, by decide⟩
  · rw [findFiles_eq_walk, walk, walkEntries_eq_flatten]
  · rw [findFiles_eq_walk, walkEntry]
    rfl

/-! ## Hidden entries and the entries `.` and `..` -/

theorem skipsName_eq_false (c : SearchCriteria) (n : Str) (h : skipsName c n = false) :
    n ≠ ['.'] ∧ n ≠ ['.', '.'] ∧ (c.include_hidden = false → n.head? ≠ some '.') := by
  unfold skipsName at h
  simp only [Bool.or_eq_false_iff, Bool.and_eq_false_iff, beq_eq_false_iff_ne, ne_eq,
    Bool.not_eq_false', Bool.not_eq_eq_eq_not, Bool.not_true] at h
  refine ⟨h.2.1, h.2.2, ?_⟩
  intro hh hhead
  rcases h.1 with h1 | h1
  · rcases h1 with h1 | h1
    · rw [hh] at h1; exact absurd h1 (by decide)
    · cases n with
      | nil => simp at hhead
      | cons a t => simp at h1
  · exact h1 (by simp [hhead])

theorem reaches_names {c : SearchCriteria} {p full : Str} {es : List DirEntry} {e : DirEntry}
    (h : Reaches c p es full e) :
    ∃ names : List Str, names ≠ [] ∧ full = p ++ slashJoin names ∧
      names.getLast? = some e.name ∧ ∀ n ∈ names, skipsName c n = false := by
  induction h with
  | @here p es e _ hs =>
    exact ⟨[e.name], by simp, by simp [slashJoin], rfl, by simpa using hs⟩
  | @inside p es sub d e dst full _ hs _ _ _ _ ih =>
    obtain ⟨names, hne, hfull, hlast, hall⟩ := ih
    refine ⟨d.name :: names, by simp, ?_, ?_, ?_⟩
    · rw [hfull]; simp [slashJoin]
    · cases names with
      | nil => exact absurd rfl hne
      | cons a t => rw [List.getLast?_cons_cons]; exact hlast
    · intro n hn
      rcases List.mem_cons.1 hn with h1 | h1
      · rw [h1]; exact hs
      · exact hall n h1

theorem namesKept_of_skipsName (c : SearchCriteria) (names : List Str)
    (h : ∀ n ∈ names, skipsName c n = false) : NamesKept c.include_hidden names :=
  fun n hn => skipsName_eq_false c n (h n hn)

mutual
theorem mem_opens_names (r h : Bool) :
    ∀ (dir : Option (List DirEntry)) (p q : Str), q ∈ opens r h p dir →
      ∃ names : List Str, q = p ++ slashJoin names ∧ NamesKept h names
  | none, p, q, hq => by
    simp only [opens, List.mem_singleton] at hq
    exact ⟨[], by simp [hq, slashJoin], by simp [NamesKept]⟩
  | some es, p, q, hq => by
    simp only [opens, List.mem_cons] at hq
    rcases hq with hq | hq
    · exact ⟨[], by simp [hq, slashJoin], by simp [NamesKept]⟩
    · exact mem_opensEntries_names r h es p q hq
theorem mem_opensEntries_names (r h : Bool) :
    ∀ (es : List DirEntry) (p q : Str), q ∈ opensEntries r h p es →
      ∃ names : List Str, q = p ++ slashJoin names ∧ NamesKept h names
  | [], p, q, hq => by simp [opensEntries] at hq
  | e :: rest, p, q, hq => by
    rw [opensEntries] at hq
    rcases List.mem_append.1 hq with h1 | h2
    · exact mem_opensEntry_names r h e p q h1
    · exact mem_opensEntries_names r h rest p q h2
theorem mem_opensEntry_names (r h : Bool) :
    ∀ (e : DirEntry) (p q : Str), q ∈ opensEntry r h p e →
      ∃ names : List Str, q = p ++ slashJoin names ∧ NamesKept h names
  | .mk name stat content dir, p, q, hq => by
    unfold opensEntry at hq
    by_cases hs : skipsName { defaultCriteria with include_hidden := h } name = true
    · simp [hs] at hq
    · have hs' : skipsName { defaultCriteria with include_hidden := h } name = false := by
        simpa using hs
      simp only [hs, if_false, Bool.false_eq_true] at hq
      cases stat with
      | none => simp at hq
      | some st =>
        simp only at hq
        by_cases hr : r = true ∧ st.kind = FileKind.directory
        · rw [if_pos hr] at hq
          obtain ⟨names, hq2, hk⟩ := mem_opens_names r h dir (p ++ ['/'] ++ name) q hq
          refine ⟨name :: names, by simp [hq2, slashJoin], ?_⟩
          intro n hn
          rcases List.mem_cons.1 hn with h1 | h1
          · rw [h1]
            exact skipsName_eq_false { defaultCriteria with include_hidden := h } name hs'
          · exact hk n h1
        · rw [if_neg hr] at hq
          simp at hq
end

/-- C18. Hidden and pseudo entries: the path of every result of `findFiles` is the search path
followed by a chain of entry names ending in the name of the result, and every directory that
the walk opens is the search path followed by such a chain; no name of these chains is `.` or
`..`, and when `include_hidden` is false no name of them begins with `.`. Hence no result is
hidden or lies below a hidden directory, and `.` and `..` are neither reported nor entered. -/
theorem hidden_and_pseudo_entries_skipped (lib : RegexLib) (c : SearchCriteria) (root : Str)
    (dir : Option (List DirEntry)) :
    (∀ r ∈ findFiles lib c root dir,
      ∃ names : List Str, r.path = root ++ slashJoin names ∧
        names.getLast? = some r.name ∧ NamesKept c.include_hidden names) ∧
    (∀ q ∈ (findFilesWalk lib c root dir).opened,
      ∃ names : List Str, q = root ++ slashJoin names ∧ NamesKept c.include_hidden names) ∧
    (findFiles ecmaFragment defaultCriteria "/root".toList (some dottedTree)).map (·.path)
      = ["/root/a.txt".toList] ∧
    (findFiles ecmaFragment { defaultCriteria with include_hidden := true } "/root".toList
        (some dottedTree)).map (·.path)
      = ["/root/.git".toList, "/root/.git/config".toList, "/root/.profile".toList,
         "/root/a.txt".toList] := by
  refine ⟨?_, ?_, by decide, by decide⟩
  · intro r hr
    rw [findFiles_eq_walk] at hr
    obtain ⟨es, -, full, e, st, hreach, -, -, hres⟩ := mem_walk_reports lib c dir root r hr
    obtain ⟨names, -, hfull, hlast, hall⟩ := reaches_names hreach
    refine ⟨names, ?_, ?_, namesKept_of_skipsName c names hall⟩
    · rw [hres]; exact hfull
    · rw [hres]; exact hlast
  · intro q hq
    rw [findFilesWalk_opened] at hq
    exact mem_opens_names _ _ dir root q hq

/-! ## Errors during the walk -/

/-- C19. Continue-on-error traversal: `findFiles` on a search path that cannot be opened
returns the empty list; a call of `searchInDirectory` on a directory that cannot be opened
leaves `results` as it was; an entry whose metadata probe fails adds no result and is never
opened, and the walk of its directory ends in the same state (results and opened directories)
as if the entry were not listed; and a directory entry that cannot be opened gives the same
results as an empty directory in its place. -/
theorem walk_continues_on_error (lib : RegexLib) (c : SearchCriteria) (p : Str) (w : Walk)
    (pre post : List DirEntry) (name : Str) (st : Stat) (content : Option Str)
    (sub : Option (List DirEntry)) :
    findFiles lib c p none = [] ∧
    (searchInDirectory lib c p none w).results = w.results ∧
    visitEntry lib c p (DirEntry.mk name none content sub) w = w ∧
    searchInDirectory lib c p (some (pre ++ DirEntry.mk name none content sub :: post)) w
      = searchInDirectory lib c p (some (pre ++ post)) w ∧
    searchInDirectory lib c p (some (pre ++ DirEntry.mk name (some st) content none :: post)) w
      = searchInDirectory lib c p
          (some (pre ++ DirEntry.mk name (some st) content (some []) :: post)) w := by
  refine ⟨rfl, rfl, ?_, ?_, ?_⟩
  · unfold visitEntry
    by_cases hs : skipsName c name = true <;> simp [hs]
  · have h1 : walkEntry lib c p (DirEntry.mk name none content sub) = [] := by
      unfold walkEntry
      by_cases hs : skipsName c name = true <;> simp [hs]
    have h2 : opensEntry c.recursive c.include_hidden p (DirEntry.mk name none content sub)
        = [] := by
      unfold opensEntry
      by_cases hs : skipsName { defaultCriteria with include_hidden := c.include_hidden } name
        = true <;> simp [hs]
    rw [searchInDirectory_eq, searchInDirectory_eq]
    simp only [walk, opens, walkEntries_append, opensEntries_append]
    rw [walkEntries, opensEntries, h1, h2]
    simp
  · have h1 : walkEntry lib c p (DirEntry.mk name (some st) content none)
        = walkEntry lib c p (DirEntry.mk name (some st) content (some [])) := by
      unfold walkEntry
      simp [walk, walkEntries]
    have h2 : opensEntry c.recursive c.include_hidden p
          (DirEntry.mk name (some st) content none)
        = opensEntry c.recursive c.include_hidden p
          (DirEntry.mk name (some st) content (some [])) := by
      unfold opensEntry
      simp [opens, opensEntries]
    rw [searchInDirectory_eq, searchInDirectory_eq]
    simp only [walk, opens, walkEntries_append, opensEntries_append]
    rw [walkEntries, opensEntries, h1, h2, ← walkEntries, ← opensEntries]

/-! ## Bookmarks -/

theorem any_name_eq_true (name : Str) (bs : List Bookmark) :
    bs.any (fun bookmark => decide (bookmark.name = name)) = true ↔ ∃ b ∈ bs, b.name = name := by
  simp

/-- C21. Duplicate bookmark names are rejected: in a state that already holds a bookmark named
`name`, `addBookmark name path description` returns false for every path and description,
whatever the directory probe says, and leaves the whole state, so the bookmark list with the
existing bookmark's path and description, unchanged. -/
theorem addBookmark_duplicate_rejected (env : Env) (nav : Navigator)
    (name path description : Str) (h : ∃ b ∈ nav.bookmarks, b.name = name) :
    addBookmark env nav name path description = (false, nav) := by
  have hany : nav.bookmarks.any (fun bookmark => decide (bookmark.name = name)) = true :=
    (any_name_eq_true name nav.bookmarks).2 h
  simp only [addBookmark, hany, if_true]

/-- C21 where the new path is an existing directory: the bookmark `docs` keeps its path. -/
theorem addBookmark_duplicate_rejected_witness :
    envAll.isDir (getAbsolutePath sampleNav envAll.home "/other".toList) = true ∧
    addBookmark envAll sampleNav "docs".toList "/other".toList "new".toList
      = (false, sampleNav) :=
  ⟨rfl, addBookmark_duplicate_rejected envAll sampleNav "docs".toList "/other".toList
    "new".toList ⟨_, List.mem_singleton.2 rfl, rfl⟩⟩

/-- C23. `addBookmark name path description` returns true exactly when no bookmark is named
`name` and the directory probe accepts `getAbsolutePath path`; on success the bookmark list is
the old list with one bookmark appended at the end, whose name is `name`, whose path is that
resolved path and whose description is `description`, or `name` when `description` is empty;
the current path and both histories are unchanged. -/
theorem addBookmark_spec (env : Env) (nav : Navigator) (name path description : Str) :
    ((addBookmark env nav name path description).1 = true ↔
      (∀ b ∈ nav.bookmarks, b.name ≠ name) ∧
        env.isDir (getAbsolutePath nav env.home path) = true) ∧
    ((addBookmark env nav name path description).1 = true →
      (addBookmark env nav name path description).2.bookmarks
          = nav.bookmarks ++
            [{ name := name
               path := getAbsolutePath nav env.home path
               description := if description = [] then name else description }] ∧
        (addBookmark env nav name path description).2.current_path = nav.current_path ∧
        (addBookmark env nav name path description).2.history_back = nav.history_back ∧
        (addBookmark env nav name path description).2.history_forward
          = nav.history_forward) := by
  by_cases h1 : nav.bookmarks.any (fun bookmark => decide (bookmark.name = name)) = true
  · have hex := (any_name_eq_true name nav.bookmarks).1 h1
    have hnot : ¬ ∀ b ∈ nav.bookmarks, b.name ≠ name := by
      intro hall
      obtain ⟨b, hb, hn⟩ := hex
      exact hall b hb hn
    simp only [addBookmark, h1, if_true, Bool.false_eq_true, false_iff, not_and, false_imp_iff,
      and_true]
    intro hall
    exact absurd hall hnot
  · have hall : ∀ b ∈ nav.bookmarks, b.name ≠ name := by
      intro b hb hn
      exact h1 ((any_name_eq_true name nav.bookmarks).2 ⟨b, hb, hn⟩)
    by_cases h2 : env.isDir (getAbsolutePath nav env.home path) = false
    · simp [addBookmark, h1, h2]
    · have h2' : env.isDir (getAbsolutePath nav env.home path) = true := by simpa using h2
      have hres : addBookmark env nav name path description
          = (true, { nav with bookmarks := nav.bookmarks ++
              [{ name := name
                 path := getAbsolutePath nav env.home path
                 description := if description = [] then name else description }] }) := by
        simp [addBookmark, h1, h2']
      rw [hres]
      exact ⟨⟨fun _ => ⟨hall, h2'⟩, fun _ => rfl⟩, fun _ => ⟨rfl, rfl, rfl, rfl⟩⟩

/-- C23 at a successful call with an empty description. -/
theorem addBookmark_spec_witness :
    (addBookmark envAll sampleNav "tmp".toList "../tmp".toList []).1 = true ∧
    (addBookmark envAll sampleNav "tmp".toList "../tmp".toList []).2.bookmarks
      = sampleNav.bookmarks ++
        [{ name := "tmp".toList, path := "/tmp".toList, description := "tmp".toList }] ∧
    (addBookmark envAll sampleNav "tmp".toList "../tmp".toList []).2.current_path
      = sampleNav.current_path ∧
    (addBookmark envAll sampleNav "tmp".toList "../tmp".toList []).2.history_back
      = sampleNav.history_back ∧
    (addBookmark envAll sampleNav "tmp".toList "../tmp".toList []).2.history_forward
      = sampleNav.history_forward :=
  ⟨by decide, (addBookmark_spec envAll sampleNav "tmp".toList "../tmp".toList []).2 (by decide)⟩

theorem navigateTo_bookmarks (env : Env) (nav : Navigator) (path : Str) :
    (navigateTo env nav path).2.bookmarks = nav.bookmarks := by
  unfold navigateTo
  by_cases hd : env.isDir (getAbsolutePath nav env.home path) = false <;> simp [hd]

theorem eraseFirstNamed_eq_some (name : Str) (bs : List Bookmark) :
    ∀ bs2, eraseFirstNamed name bs = some bs2 →
      ∃ pre b post, bs = pre ++ b :: post ∧ b.name = name ∧
        (∀ x ∈ pre, x.name ≠ name) ∧ bs2 = pre ++ post := by
  induction bs with
  | nil => intro bs2 h; simp [eraseFirstNamed] at h
  | cons a rest ih =>
    intro bs2 h
    by_cases ha : a.name = name
    · simp only [eraseFirstNamed, ha, if_true, Option.some.injEq] at h
      exact ⟨[], a, rest, rfl, ha, by simp, h.symm⟩
    · simp only [eraseFirstNamed, ha, if_false, Option.map_eq_some'] at h
      obtain ⟨bs3, h3, h4⟩ := h
      obtain ⟨pre, b, post, e1, e2, e3, e4⟩ := ih bs3 h3
      refine ⟨a :: pre, b, post, by simp [e1], e2, ?_, by simp [← h4, e4]⟩
      intro x hx
      rcases List.mem_cons.1 hx with hx | hx
      · rw [hx]; exact ha
      · exact e3 x hx

theorem removeBookmark_names_nodup (nav : Navigator) (name : Str)
    (h : (nav.bookmarks.map (·.name)).Nodup) :
    ((removeBookmark nav name).2.bookmarks.map (·.name)).Nodup := by
  unfold removeBookmark
  cases he : eraseFirstNamed name nav.bookmarks with
  | none => simpa using h
  | some bs2 =>
    obtain ⟨pre, b, post, e1, -, -, e4⟩ := eraseFirstNamed_eq_some name _ bs2 he
    simp only
    rw [e1] at h
    rw [e4]
    simp only [List.map_append, List.map_cons] at h ⊢
    exact List.Nodup.sublist (List.Sublist.append_left (List.sublist_cons_self _ _) _) h

theorem addBookmark_cases (env : Env) (nav : Navigator) (name path description : Str) :
    addBookmark env nav name path description = (false, nav) ∨
    ((∀ b ∈ nav.bookmarks, b.name ≠ name) ∧
      addBookmark env nav name path description
        = (true, { nav with bookmarks := nav.bookmarks ++
            [{ name := name
               path := getAbsolutePath nav env.home path
               description := if description = [] then name else description }] })) := by
  by_cases h1 : nav.bookmarks.any (fun bookmark => decide (bookmark.name = name)) = true
  · left
    simp only [addBookmark, h1, if_true]
  · by_cases h2 : env.isDir (getAbsolutePath nav env.home path) = false
    · left
      simp [addBookmark, h1, h2]
    · right
      have h2' : env.isDir (getAbsolutePath nav env.home path) = true := by simpa using h2
      refine ⟨?_, by simp [addBookmark, h1, h2']⟩
      intro b hb hn
      exact h1 ((any_name_eq_true name nav.bookmarks).2 ⟨b, hb, hn⟩)

theorem addBookmark_names_nodup (env : Env) (nav : Navigator) (name path description : Str)
    (h : (nav.bookmarks.map (·.name)).Nodup) :
    ((addBookmark env nav name path description).2.bookmarks.map (·.name)).Nodup := by
  rcases addBookmark_cases env nav name path description with hc | ⟨hall, hc⟩
  · rw [hc]; exact h
  · rw [hc]
    simp only [List.map_append, List.map_cons, List.map_nil]
    rw [List.nodup_append]
    refine ⟨h, by simp, ?_⟩
    intro a ha hb
    simp only [List.mem_singleton] at hb
    simp only [List.mem_map] at ha
    obtain ⟨x, hx, hxa⟩ := ha
    exact hall x hx (hxa.trans hb)

theorem exec_names_nodup (env : Env) (nav : Navigator) (c : Call)
    (h : (nav.bookmarks.map (·.name)).Nodup) :
    ((c.exec env nav).bookmarks.map (·.name)).Nodup := by
  cases c with
  | navigateTo path => simpa [Call.exec, navigateTo_bookmarks] using h
  | goBack =>
    simp only [Call.exec, goBack]
    cases nav.history_back <;> simpa using h
  | goForward =>
    simp only [Call.exec, goForward]
    cases nav.history_forward <;> simpa using h
  | goToParent => simpa [Call.exec, goToParent, navigateTo_bookmarks] using h
  | goToHome => simpa [Call.exec, goToHome, navigateTo_bookmarks] using h
  | goToBookmark name =>
    simp only [Call.exec, goToBookmark]
    cases nav.bookmarks.find? (fun bookmark => bookmark.name = name) with
    | none => exact h
    | some b => simpa [navigateTo_bookmarks] using h
  | addToHistory path =>
    simp only [Call.exec, addToHistory]
    split <;> simpa using h
  | clearHistory => simpa [Call.exec, clearHistory] using h
  | addBookmark name path description =>
    exact addBookmark_names_nodup env nav name path description h
  | removeBookmark name => exact removeBookmark_names_nodup nav name h
  | setCurrentPath path => simpa [Call.exec, setCurrentPath] using h

theorem runCalls_names_nodup (calls : List (Env × Call)) :
    ∀ nav : Navigator, (nav.bookmarks.map (·.name)).Nodup →
      ((runCalls nav calls).bookmarks.map (·.name)).Nodup := by
  induction calls with
  | nil => intro nav h; exact h
  | cons c cs ih =>
    intro nav h
    exact ih _ (exec_names_nodup c.1 nav c.2 h)

/-- C22. Bookmark names are a unique key: in every state reached from a Navigator without
bookmarks by any finite sequence of public mutating calls (`addBookmark`, `removeBookmark`, the
navigation calls and the others), each in its own environment, no two bookmarks of the list
have the same name. -/
theorem bookmark_names_unique (init : Navigator) (calls : List (Env × Call))
    (hinit : init.bookmarks = []) :
    ((runCalls init calls).bookmarks.map (·.name)).Nodup :=
  runCalls_names_nodup calls init (by simp [hinit])

/-- C22 on a run that adds `a`, tries to add `a` again, adds `b`, navigates and removes `a`. -/
theorem bookmark_names_unique_witness :
    ((runCalls freshNav
      [(envAll, Call.addBookmark "a".toList "/x".toList []),
       (envAll, Call.addBookmark "a".toList "/y".toList []),
       (envAll, Call.addBookmark "b".toList "/y".toList []),
       (envAll, Call.goToBookmark "b".toList),
       (envAll, Call.removeBookmark "a".toList)]).bookmarks.map (·.name)).Nodup ∧
    (runCalls freshNav
      [(envAll, Call.addBookmark "a".toList "/x".toList []),
       (envAll, Call.addBookmark "a".toList "/y".toList []),
       (envAll, Call.addBookmark "b".toList "/y".toList [])]).bookmarks.map (·.path)
      = ["/x".toList, "/y".toList] :=
  ⟨bookmark_names_unique freshNav _ rfl, by decide⟩

theorem find?_name_eq_none (name : Str) (bs : List Bookmark)
    (h : ∀ b ∈ bs, b.name ≠ name) :
    bs.find? (fun bookmark => decide (bookmark.name = name)) = none := by
  rw [List.find?_eq_none]
  intro b hb
  simpa using h b hb

/-- C24. `removeBookmark name` returns false exactly when no bookmark has that name; when it
returns true the bookmark list was `pre ++ b :: post` with `b` the first bookmark of that name,
and the new state differs from the old one only in its bookmark list, which is `pre ++ post`
(the other bookmarks, unchanged and in their order); and when the names were unique, a
following `goToBookmark name` or `removeBookmark name` returns false. -/
theorem removeBookmark_spec (env : Env) (nav : Navigator) (name : Str) :
    ((removeBookmark nav name).1 = false ↔ ∀ b ∈ nav.bookmarks, b.name ≠ name) ∧
    ((removeBookmark nav name).1 = true →
      ∃ pre b post, nav.bookmarks = pre ++ b :: post ∧ b.name = name ∧
        (∀ x ∈ pre, x.name ≠ name) ∧
        (removeBookmark nav name).2 = { nav with bookmarks := pre ++ post } ∧
        ((nav.bookmarks.map (·.name)).Nodup →
          (goToBookmark env (removeBookmark nav name).2 name).1 = false ∧
          (removeBookmark (removeBookmark nav name).2 name).1 = false)) := by
  unfold removeBookmark
  cases he : eraseFirstNamed name nav.bookmarks with
  | none =>
    simp only [true_iff, Bool.false_eq_true, false_imp_iff, and_true]
    exact (eraseFirstNamed_eq_none name nav.bookmarks).1 he
  | some bs2 =>
    obtain ⟨pre, b, post, e1, e2, e3, e4⟩ := eraseFirstNamed_eq_some name _ bs2 he
    constructor
    · simp only [Bool.true_eq_false, false_iff]
      intro hall
      exact hall b (by simp [e1]) e2
    · intro _
      refine ⟨pre, b, post, e1, e2, e3, by simp [e4], ?_⟩
      intro hnd
      have hrest : ∀ x ∈ pre ++ post, x.name ≠ name := by
        intro x hx
        rcases List.mem_append.1 hx with hx | hx
        · exact e3 x hx
        · rw [e1] at hnd
          simp only [List.map_append, List.map_cons] at hnd
          have hmid := (List.nodup_append.1 hnd).2.1
          have hnotin := (List.nodup_cons.1 hmid).1
          intro hn
          apply hnotin
          rw [e2, ← hn]
          exact List.mem_map_of_mem _ hx
      simp only
      rw [e4]
      constructor
      · simp only [goToBookmark]
        rw [find?_name_eq_none name _ hrest]
      · rw [(eraseFirstNamed_eq_none name (pre ++ post)).2 hrest]

/-- C24 on a state with the bookmarks `docs` and `tmp`: removing `docs` leaves `tmp`, and
`docs` can then neither be visited nor removed again. -/
theorem removeBookmark_spec_witness :
    (removeBookmark (addBookmark envAll sampleNav "tmp".toList "/tmp".toList []).2
      "docs".toList).2.bookmarks.map (·.name) = ["tmp".toList] ∧
    ∃ pre b post,
      (addBookmark envAll sampleNav "tmp".toList "/tmp".toList []).2.bookmarks
        = pre ++ b :: post ∧ b.name = "docs".toList ∧
      (∀ x ∈ pre, x.name ≠ "docs".toList) ∧
      (removeBookmark (addBookmark envAll sampleNav "tmp".toList "/tmp".toList []).2
          "docs".toList).2
        = { (addBookmark envAll sampleNav "tmp".toList "/tmp".toList []).2 with
            bookmarks := pre ++ post } ∧
      (((addBookmark envAll sampleNav "tmp".toList "/tmp".toList []).2.bookmarks.map
          (·.name)).Nodup →
        (goToBookmark envAll
          (removeBookmark (addBookmark envAll sampleNav "tmp".toList "/tmp".toList []).2
            "docs".toList).2 "docs".toList).1 = false ∧
        (removeBookmark
          (removeBookmark (addBookmark envAll sampleNav "tmp".toList "/tmp".toList []).2
            "docs".toList).2 "docs".toList).1 = false) :=
  ⟨by decide,
   (removeBookmark_spec envAll (addBookmark envAll sampleNav "tmp".toList "/tmp".toList []).2
      "docs".toList).2 (by decide)⟩

/-! ## The history accessors -/

theorem drainStack_eq (stack : List Str) :
    ∀ history : List Str, drainStack stack history = stack.reverse ++ history := by
  induction stack with
  | nil => intro history; rfl
  | cons top rest ih => intro history; rw [drainStack, ih]; simp

theorem foldl_push_eq_reverse (pushed : List Str) :
    ∀ stack : List Str,
      pushed.foldl (fun s p => p :: s) stack = pushed.reverse ++ stack := by
  induction pushed with
  | nil => intro stack; rfl
  | cons p ps ih => intro stack; rw [List.foldl_cons, ih]; simp

/-- C25. The history accessors list the entries oldest first: after the paths `pushed` have
been pushed in turn on an empty back (or forward) stack, `getHistoryBack` (or
`getHistoryForward`) returns `pushed`; a further push appends at the end of the returned list;
and when the stack is not empty the last element returned is the path that the next `goBack`
(or `goForward`) makes current. -/
theorem history_accessors_oldest_first (nav : Navigator) (pushed : List Str) (x : Str) :
    getHistoryBack { nav with history_back := pushed.foldl (fun s p => p :: s) [] } = pushed ∧
    getHistoryForward { nav with history_forward := pushed.foldl (fun s p => p :: s) [] }
      = pushed ∧
    getHistoryBack { nav with history_back := x :: nav.history_back }
      = getHistoryBack nav ++ [x] ∧
    getHistoryForward { nav with history_forward := x :: nav.history_forward }
      = getHistoryForward nav ++ [x] ∧
    (nav.history_back ≠ [] →
      (getHistoryBack nav).getLast? = some (goBack nav).2.current_path) ∧
    (nav.history_forward ≠ [] →
      (getHistoryForward nav).getLast? = some (goForward nav).2.current_path) := by
  refine ⟨?_, ?_, ?_, ?_, ?_, ?_⟩
  · simp [getHistoryBack, drainStack_eq, foldl_push_eq_reverse]
  · simp [getHistoryForward, drainStack_eq, foldl_push_eq_reverse]
  · simp [getHistoryBack, drainStack_eq]
  · simp [getHistoryForward, drainStack_eq]
  · intro h
    cases hb : nav.history_back with
    | nil => exact absurd hb h
    | cons t r => simp [getHistoryBack, drainStack_eq, goBack, hb]
  · intro h
    cases hf : nav.history_forward with
    | nil => exact absurd hf h
    | cons t r => simp [getHistoryForward, drainStack_eq, goForward, hf]

/-- C25 on the state reached from `/home` by visiting `/a`, `/b` and `/c` and going back once. -/
theorem history_accessors_oldest_first_witness :
    getHistoryBack (runCalls freshNav
      [(envAll, Call.navigateTo "/a".toList), (envAll, Call.navigateTo "/b".toList),
       (envAll, Call.navigateTo "/c".toList), (envAll, Call.goBack)])
      = ["/home".toList, "/a".toList] ∧
    (getHistoryBack (runCalls freshNav
      [(envAll, Call.navigateTo "/a".toList), (envAll, Call.navigateTo "/b".toList),
       (envAll, Call.navigateTo "/c".toList), (envAll, Call.goBack)])).getLast?
      = some (goBack (runCalls freshNav
      [(envAll, Call.navigateTo "/a".toList), (envAll, Call.navigateTo "/b".toList),
       (envAll, Call.navigateTo "/c".toList), (envAll, Call.goBack)])).2.current_path ∧
    (getHistoryForward (runCalls freshNav
      [(envAll, Call.navigateTo "/a".toList), (envAll, Call.navigateTo "/b".toList),
       (envAll, Call.navigateTo "/c".toList), (envAll, Call.goBack)])).getLast?
      = some (goForward (runCalls freshNav
      [(envAll, Call.navigateTo "/a".toList), (envAll, Call.navigateTo "/b".toList),
       (envAll, Call.navigateTo "/c".toList), (envAll, Call.goBack)])).2.current_path :=
  ⟨by decide,
   (history_accessors_oldest_first _ [] []).2.2.2.2.1 (by decide),
   (history_accessors_oldest_first _ [] []).2.2.2.2.2 (by decide)⟩

/-! ## The bound on the back history under all public calls -/

set_option maxRecDepth 100000 in
/-- C27. After 100 successful `navigateTo` calls, `goBack()`, `addToHistory("/x")` and
`goForward()` on a fresh Navigator, the back history holds 101 entries: `addToHistory` refills
the back history to 100 entries while one entry waits in the forward history, and `goForward`
pushes without the size check. -/
theorem back_history_exceeds_bound :
    freshNav.history_back = [] ∧ freshNav.history_forward = [] ∧
    (runCalls freshNav (overflowCalls.take 100)).history_back.length = 100 ∧
    (runCalls freshNav (overflowCalls.take 102)).history_back.length = 100 ∧
    (runCalls freshNav (overflowCalls.take 102)).history_forward.length = 1 ∧
    (runCalls freshNav overflowCalls).history_back.length = 101 := by
  decide

/-! ## The segment `..` in a resolved path -/

theorem componentStep_dotdot_first (comps : List Str) (t : Str)
    (h : ∀ c ∈ comps.tail, c ≠ ['.', '.']) :
    ∀ c ∈ (componentStep comps t).tail, c ≠ ['.', '.'] := by
  unfold componentStep
  split_ifs with h1 h2 h3 h4
  · exact h
  · intro c hc
    rw [List.tail_dropLast] at hc
    exact h c (List.mem_of_mem_dropLast hc)
  · subst h4
    simp
  · exact h
  · cases comps with
    | nil => simp
    | cons a as =>
      intro c hc
      simp only [List.cons_append, List.tail_cons, List.mem_append, List.mem_singleton] at hc
      rcases hc with hc | hc
      · exact h c (by simpa using hc)
      · rw [hc]; exact h2

theorem foldl_componentStep_dotdot_first (ts : List Str) :
    ∀ comps : List Str, (∀ c ∈ comps.tail, c ≠ ['.', '.']) →
      ∀ c ∈ (ts.foldl componentStep comps).tail, c ≠ ['.', '.'] := by
  induction ts with
  | nil => intro comps h; exact h
  | cons t ts ih =>
    intro comps h
    rw [List.foldl_cons]
    exact ih _ (componentStep_dotdot_first comps t h)

theorem componentStep_on_dotdot (comps : List Str) (h : comps.getLast? = some ['.', '.']) :
    componentStep comps ['.', '.'] = comps := by
  have hne : comps ≠ [] := by
    intro h0; rw [h0] at h; simp at h
  simp [componentStep, h, hne]

theorem foldl_componentStep_replicate_dotdot (n : Nat) :
    (List.replicate n ['.', '.']).foldl componentStep [['.', '.']] = [['.', '.']] := by
  induction n with
  | zero => rfl
  | succ n ih =>
    rw [List.replicate_succ, List.foldl_cons, componentStep_on_dotdot _ (by rfl)]
    exact ih

theorem getlines_slashJoin (cs : List Str) (c : Str) (h : ∀ x ∈ cs, '/' ∉ x) (hc : '/' ∉ c)
    (hne : c ≠ []) : getlines '/' (slashJoin (cs ++ [c])) = [] :: (cs ++ [c]) := by
  rw [slashJoin_concat, getlines_slashJoin_append cs h, getlines_no_delim_self '/' c hc hne]

theorem segments_absPath_dotdot (comps : List Str) (h : ∀ c ∈ comps, GoodComponent c)
    (h2 : ∀ c ∈ comps.tail, c ≠ ['.', '.']) :
    ∀ i, (segments (absPath comps)).get? i = some ['.', '.'] → i = 1 := by
  intro i hi
  unfold absPath at hi
  split_ifs at hi with h0
  · have : segments ['/'] = [[], []] := by decide
    rw [this] at hi
    match i, hi with
    | 0, hi => simp at hi
    | 1, _ => rfl
    | 2, hi => simp at hi
    | (n + 3), hi => simp at hi
  · rw [segments_slashJoin comps (fun c hc => (h c hc).2.1)] at hi
    match i, hi with
    | 0, hi => simp at hi
    | 1, _ => rfl
    | (n + 2), hi =>
      exfalso
      cases comps with
      | nil => exact h0 rfl
      | cons a as =>
        simp only [List.get?_cons_succ] at hi
        exact h2 _ (List.get?_mem hi) rfl

theorem resolveGeneral_dotdot_chain (m : Nat) :
    resolveGeneral ['/'] (['.', '.'] ++ slashJoin (List.replicate m ['.', '.']))
      = "/..".toList := by
  cases m with
  | zero => decide
  | succ m =>
    have hdd : ∀ x ∈ [[], ['.', '.']] ++ List.replicate m ['.', '.'], '/' ∉ x := by
      intro x hx
      rcases List.mem_append.1 hx with hx | hx
      · simp only [List.mem_cons, List.mem_singleton, List.not_mem_nil, or_false] at hx
        rcases hx with hx | hx <;> rw [hx] <;> decide
      · rw [(List.mem_replicate.1 hx).2]; decide
    have hgl : getlines '/' (joinedPath ['/']
        (['.', '.'] ++ slashJoin (List.replicate (m + 1) ['.', '.'])))
        = [] :: ([[], ['.', '.']] ++ List.replicate m ['.', '.'] ++ [['.', '.']]) := by
      rw [← getlines_slashJoin _ _ hdd (by decide) (by decide), List.replicate_succ']
      simp [joinedPath, slashJoin_append, slashJoin]
    rw [resolveGeneral_eq_absPath, hgl]
    have hfold : ([] :: ([[], ['.', '.']] ++ List.replicate m ['.', '.'] ++ [['.', '.']])).foldl
        componentStep [] = [['.', '.']] := by
      rw [List.append_assoc, ← List.replicate_succ']
      exact foldl_componentStep_replicate_dotdot (m + 1)
    rw [hfold]
    decide

/-- C28. For every input other than the empty string, `~` and `-`, and every current path, a
segment of the result of `getAbsolutePath` that equals `..` is the first segment (the one
after the leading `/`, at index 1 of the `/`-delimited segments); a `..` token met while the
last component kept so far is `..` leaves the components as they are; and from the current
path `/` a chain of one or more `..` joined by `/` resolves to `/..`. -/
theorem getAbsolutePath_dotdot_only_first (nav : Navigator) (home path : Str)
    (comps : List Str) (n : Nat) :
    (path ≠ [] → path ≠ ['~'] → path ≠ ['-'] →
      ∀ i, (segments (getAbsolutePath nav home path)).get? i = some ['.', '.'] → i = 1) ∧
    (comps.getLast? = some ['.', '.'] → componentStep comps ['.', '.'] = comps) ∧
    (nav.current_path = ['/'] →
      getAbsolutePath nav home "../..".toList = "/..".toList ∧
      getAbsolutePath nav home (['.', '.'] ++ slashJoin (List.replicate n ['.', '.']))
        = "/..".toList) := by
  refine ⟨?_, componentStep_on_dotdot comps, ?_⟩
  · intro h1 h2 h3
    simp only [getAbsolutePath, h1, h2, h3, if_false]
    rw [resolveGeneral_eq_absPath]
    exact segments_absPath_dotdot _
      (foldl_componentStep_good _ (getlines_no_delim '/' _) [] (by simp))
      (foldl_componentStep_dotdot_first _ [] (by simp))
  · intro hcur
    simp only [getAbsolutePath, hcur]
    exact ⟨resolveGeneral_dotdot_chain 1, resolveGeneral_dotdot_chain n⟩

/-- C28 on the current path `/`: `../../a` resolves to `/../a`, whose only `..` is the first
segment, and a chain of three `..` resolves to `/..`. -/
theorem getAbsolutePath_dotdot_only_first_witness :
    getAbsolutePath { sampleNav with current_path := ['/'] } "/home".toList "../../a".toList
      = "/../a".toList ∧
    (∀ i, (segments (getAbsolutePath { sampleNav with current_path := ['/'] } "/home".toList
      "../../a".toList)).get? i = some ['.', '.'] → i = 1) ∧
    componentStep [['.', '.']] ['.', '.'] = [['.', '.']] ∧
    getAbsolutePath { sampleNav with current_path := ['/'] } "/home".toList
      (['.', '.'] ++ slashJoin (List.replicate 2 ['.', '.'])) = "/..".toList :=
  ⟨by decide,
   (getAbsolutePath_dotdot_only_first { sampleNav with current_path := ['/'] } "/home".toList
      "../../a".toList [] 0).1 (by decide) (by decide) (by decide),
   (getAbsolutePath_dotdot_only_first sampleNav [] [] [['.', '.']] 0).2.1 (by decide),
   ((getAbsolutePath_dotdot_only_first { sampleNav with current_path := ['/'] } "/home".toList
      [] [] 2).2.2 rfl).2⟩

/-! ## Idempotence of path resolution -/

theorem getlines_absPath (comps : List Str) (h : ∀ c ∈ comps, GoodComponent c) :
    (getlines '/' (absPath comps)).foldl componentStep [] = comps.foldl componentStep [] := by
  rcases List.eq_nil_or_concat comps with h0 | ⟨cs, c, h0⟩
  · subst h0; decide
  · rw [List.concat_eq_append] at h0
    subst h0
    have hc := h c (by simp)
    have hne : cs ++ [c] ≠ [] := by simp
    rw [absPath, if_neg hne,
      getlines_slashJoin cs c (fun x hx => (h x (by simp [hx])).2.1) hc.2.1 hc.1]
    rfl

theorem foldl_componentStep_self (comps : List Str) (h : ∀ c ∈ comps, GoodComponent c)
    (h2 : ∀ c ∈ comps.tail, c ≠ ['.', '.']) : comps.foldl componentStep [] = comps := by
  cases comps with
  | nil => rfl
  | cons a as =>
    have ha := h a (by simp)
    have h1 : componentStep [] a = [a] := by
      by_cases hd : a = ['.', '.']
      · subst hd; decide
      · simpa using componentStep_plain [] a ha.1 ha.2.2 hd
    rw [List.foldl_cons, h1, foldl_componentStep_plain as (fun c hc => ?_) [a]]
    · rfl
    · have hg := h c (by simp [hc])
      exact ⟨hg.1, hg.2.2, h2 c (by simpa using hc)⟩

theorem resolveGeneral_absPath (current_path : Str) (comps : List Str)
    (h : ∀ c ∈ comps, GoodComponent c) (h2 : ∀ c ∈ comps.tail, c ≠ ['.', '.']) :
    resolveGeneral current_path (absPath comps) = absPath comps := by
  rw [resolveGeneral_eq_absPath]
  have hj : joinedPath current_path (absPath comps) = absPath comps := by
    simp [joinedPath, absPath_head?]
  rw [hj, getlines_absPath comps h, foldl_componentStep_self comps h h2]

theorem absPath_not_special (comps : List Str) :
    absPath comps ≠ [] ∧ absPath comps ≠ ['~'] ∧ absPath comps ≠ ['-'] := by
  have hh := absPath_head? comps
  refine ⟨?_, ?_, ?_⟩ <;> intro h0 <;> rw [h0] at hh <;> simp at hh

/-- C29. Path resolution is idempotent: for every input `p` other than the empty string, `~`
and `-`, the result of resolving `p` in one state starts with `/` and resolves to itself in
any other state (any current path, back history and home directory); and `normalizePath`
applied to its own result changes nothing. -/
theorem getAbsolutePath_idempotent (nav nav2 : Navigator) (home home2 p s : Str) :
    (p ≠ [] → p ≠ ['~'] → p ≠ ['-'] →
      (getAbsolutePath nav home p).head? = some '/' ∧
      getAbsolutePath nav2 home2 (getAbsolutePath nav home p) = getAbsolutePath nav home p) ∧
    normalizePath (normalizePath s) = normalizePath s := by
  constructor
  · intro h1 h2 h3
    simp only [getAbsolutePath, h1, h2, h3, if_false]
    rw [resolveGeneral_eq_absPath]
    have hg := foldl_componentStep_good _ (getlines_no_delim '/' (joinedPath nav.current_path p))
      [] (by simp)
    have hd := foldl_componentStep_dotdot_first (getlines '/' (joinedPath nav.current_path p))
      [] (by simp)
    obtain ⟨n1, n2, n3⟩ := absPath_not_special
      ((getlines '/' (joinedPath nav.current_path p)).foldl componentStep [])
    refine ⟨absPath_head? _, ?_⟩
    rw [if_neg n1, if_neg n2, if_neg n3]
    exact resolveGeneral_absPath _ _ hg hd
  · apply normalizePath_of_canonical_shape _ (normalizePath_noDoubleSlash s)
    intro hl
    rcases normalizePath_getLast? s with h | h
    · exact absurd hl h
    · exact h

/-- C29 on the input `x/../../y//` resolved from `/b`, and resolved again from `/cur`. -/
theorem getAbsolutePath_idempotent_witness :
    getAbsolutePath sampleNav "/home".toList "x/../../y//".toList = "/y".toList ∧
    (getAbsolutePath sampleNav "/home".toList "x/../../y//".toList).head? = some '/' ∧
    getAbsolutePath fullNav "/root".toList
      (getAbsolutePath sampleNav "/home".toList "x/../../y//".toList)
      = getAbsolutePath sampleNav "/home".toList "x/../../y//".toList :=
  ⟨by decide,
   (getAbsolutePath_idempotent sampleNav fullNav "/home".toList "/root".toList
      "x/../../y//".toList []).1 (by decide) (by decide) (by decide)⟩

/-! ## Content search and the result set -/

theorem matchesCriteria_content (lib : RegexLib) (c : SearchCriteria) (cp : Str) (sc : Bool)
    (path : Str) (st : Stat) :
    matchesCriteria lib path st { c with content_pattern := cp, search_content := sc }
      = matchesCriteria lib path st c := rfl

theorem skipsName_content (c : SearchCriteria) (cp : Str) (sc : Bool) (name : Str) :
    skipsName { c with content_pattern := cp, search_content := sc } name = skipsName c name :=
  rfl

mutual
theorem walk_entryFields (lib : RegexLib) (c : SearchCriteria) (cp : Str) (sc : Bool) :
    ∀ (dir : Option (List DirEntry)) (p : Str),
      (walk lib { c with content_pattern := cp, search_content := sc } p dir).map entryFields
        = (walk lib c p dir).map entryFields
  | none, p => by simp [walk]
  | some es, p => by
    rw [walk, walk]
    exact walkEntries_entryFields lib c cp sc es p
theorem walkEntries_entryFields (lib : RegexLib) (c : SearchCriteria) (cp : Str) (sc : Bool) :
    ∀ (es : List DirEntry) (p : Str),
      (walkEntries lib { c with content_pattern := cp, search_content := sc } p es).map
          entryFields
        = (walkEntries lib c p es).map entryFields
  | [], p => by simp [walkEntries]
  | e :: rest, p => by
    rw [walkEntries, walkEntries, List.map_append, List.map_append,
      walkEntry_entryFields lib c cp sc e p, walkEntries_entryFields lib c cp sc rest p]
theorem walkEntry_entryFields (lib : RegexLib) (c : SearchCriteria) (cp : Str) (sc : Bool) :
    ∀ (e : DirEntry) (p : Str),
      (walkEntry lib { c with content_pattern := cp, search_content := sc } p e).map
          entryFields
        = (walkEntry lib c p e).map entryFields
  | .mk name stat content dir, p => by
    unfold walkEntry
    rw [skipsName_content]
    by_cases hs : skipsName c name = true
    · simp [hs]
    · simp only [hs, if_false, Bool.false_eq_true]
      cases stat with
      | none => simp
      | some st =>
        simp only [matchesCriteria_content, List.map_append]
        congr 1
        · by_cases hm : matchesCriteria lib (p ++ ['/'] ++ name) st c = true
          · rw [if_pos hm, if_pos hm]
            simp [makeResult, entryFields]
          · rw [if_neg hm, if_neg hm]
        · by_cases hr : c.recursive = true ∧ st.kind = FileKind.directory
          · rw [if_pos hr, if_pos hr]
            exact walk_entryFields lib c cp sc dir _
          · rw [if_neg hr, if_neg hr]
end

theorem forall₂_of_map_entryFields :
    ∀ l1 l2 : List SearchResult, l1.map entryFields = l2.map entryFields →
      List.Forall₂ (fun r1 r2 => r1.path = r2.path ∧ r1.name = r2.name ∧ r1.type = r2.type ∧
        r1.size = r2.size) l1 l2
  | [], [], _ => List.Forall₂.nil
  | [], _ :: _, h => by simp at h
  | _ :: _, [], h => by simp at h
  | a :: l1, b :: l2, h => by
    simp only [List.map_cons, List.cons.injEq] at h
    refine List.Forall₂.cons ?_ (forall₂_of_map_entryFields l1 l2 h.2)
    have h1 := h.1
    simp only [entryFields, Prod.mk.injEq] at h1
    exact h1

theorem scanLines_no_match (pattern : Str → Bool) (lines : List Str)
    (h : ∀ line ∈ lines, pattern line = false) (n : Nat) : scanLines pattern lines n [] = [] := by
  rw [scanLines_eq, List.nil_append, List.filter_eq_nil_iff]
  intro p hp
  have := h p.2 (by
    have hm := List.mem_map_of_mem Prod.snd hp
    rwa [List.enumFrom_map_snd] at hm)
  simp [this]

theorem mem_walkEntries_here (lib : RegexLib) (c : SearchCriteria) (p : Str)
    (es : List DirEntry) (e : DirEntry) (st : Stat) (hm : e ∈ es)
    (hs : skipsName c e.name = false) (hst : e.stat = some st)
    (hmatch : matchesCriteria lib (p ++ ['/'] ++ e.name) st c = true) :
    makeResult lib c (p ++ ['/'] ++ e.name) e.name st e.content ∈ walkEntries lib c p es := by
  apply mem_walkEntries_of_mem lib c p _ e es hm
  cases e with
  | mk name stat content dir =>
    simp only [DirEntry.name, DirEntry.stat, DirEntry.content] at hs hst hmatch ⊢
    subst hst
    unfold walkEntry
    simp only [hs, if_false, Bool.false_eq_true]
    apply List.mem_append_left
    rw [if_pos hmatch]
    exact List.mem_singleton.2 rfl

theorem typeName_eq_file (k : FileKind) : typeName k = "File".toList ↔ k = FileKind.regular := by
  cases k <;> decide

/-- C26. Content search never filters the result set: for every directory tree and every two
criteria that differ only in `content_pattern` and `search_content`, the two result lists of
`findFiles` have the same length and their paths, names, types and sizes agree position by
position; `content_matches` is empty for every result whose type is not `File` and for every
result when `search_content` is false; and a regular file that the walk reaches and that
satisfies `matchesCriteria`, but none of whose lines matches the content pattern, is returned
with an empty `content_matches`. -/
theorem content_search_never_filters (lib : RegexLib) (c : SearchCriteria) (cp : Str)
    (sc : Bool) (root : Str) (dir : Option (List DirEntry)) :
    List.Forall₂ (fun r1 r2 => r1.path = r2.path ∧ r1.name = r2.name ∧ r1.type = r2.type ∧
        r1.size = r2.size)
      (findFiles lib { c with content_pattern := cp, search_content := sc } root dir)
      (findFiles lib c root dir) ∧
    (findFiles lib { c with content_pattern := cp, search_content := sc } root dir).length
      = (findFiles lib c root dir).length ∧
    (∀ r ∈ findFiles lib c root dir,
      r.type ≠ "File".toList ∨ c.search_content = false → r.content_matches = []) ∧
    (∀ es full e st, dir = some es →
      (c.recursive = true ∧ Reaches c root es full e ∨
        e ∈ es ∧ skipsName c e.name = false ∧ full = root ++ ['/'] ++ e.name) →
      e.stat = some st → st.kind = FileKind.regular →
      matchesCriteria lib full st c = true →
      (∀ pattern text, lib.compile c.content_pattern (!c.case_sensitive) = some pattern →
        e.content = some text → ∀ line ∈ getlines '\n' text, pattern line = false) →
      ({ path := full, name := e.name, type := "File".toList, size := st.st_size,
         content_matches := [] } : SearchResult) ∈ findFiles lib c root dir) := by
  have hmap := walk_entryFields lib c cp sc dir root
  refine ⟨?_, ?_, ?_, ?_⟩
  · rw [findFiles_eq_walk, findFiles_eq_walk]
    exact forall₂_of_map_entryFields _ _ hmap
  · rw [findFiles_eq_walk, findFiles_eq_walk]
    simpa using congrArg List.length hmap
  · intro r hr hcase
    rw [findFiles_eq_walk] at hr
    obtain ⟨es, _, full, e, st, _, _, _, hres⟩ := mem_walk_reports lib c dir root r hr
    rw [hres]
    simp only [makeResult]
    rw [if_neg]
    rintro ⟨h1, h2⟩
    rcases hcase with h | h
    · apply h
      rw [hres]
      simp only [makeResult]
      exact (typeName_eq_file st.kind).2 h2
    · rw [h] at h1
      exact absurd h1 (by decide)
  · intro es full e st hdir hreach hst hk hmatch hlines
    subst hdir
    have hmem : makeResult lib c full e.name st e.content ∈ findFiles lib c root (some es) := by
      rw [findFiles_eq_walk, walk]
      rcases hreach with ⟨hrec, hr⟩ | ⟨hm, hs, hfull⟩
      · exact reaches_mem_walkEntries lib c hrec hr st hst hmatch
      · subst hfull
        exact mem_walkEntries_here lib c root es e st hm hs hst hmatch
    have heq : makeResult lib c full e.name st e.content
        = { path := full, name := e.name, type := "File".toList, size := st.st_size,
            content_matches := [] } := by
      have hcm : searchInFile lib e.content c = [] := by
        unfold searchInFile
        cases hc : e.content with
        | none => rfl
        | some text =>
          simp only
          cases hp : lib.compile c.content_pattern (!c.case_sensitive) with
          | none => rfl
          | some pattern =>
            simp only
            exact scanLines_no_match pattern _ (hlines pattern text hp hc) 1
      simp [makeResult, hk, hcm, typeName]
    rw [← heq]
    exact hmem

/-- C26 on the tree `/root/{a.txt, sub/{b.txt}}` searched for the content `TODO`: the search
returns the same three entries as the search without content, the directory `sub` and the
empty file `sub/b.txt` with no content match. -/
theorem content_search_never_filters_witness :
    (findFiles ecmaFragment todoCriteria "/root".toList (some sampleTree)).map
        (fun r => (r.path, r.content_matches))
      = [("/root/a.txt".toList, [(2, "// TODO: fix".toList)]), ("/root/sub".toList, []),
         ("/root/sub/b.txt".toList, [])] ∧
    (findFiles ecmaFragment { todoCriteria with content_pattern := [], search_content := false }
        "/root".toList (some sampleTree)).map (fun r => (r.path, r.content_matches))
      = [("/root/a.txt".toList, []), ("/root/sub".toList, []), ("/root/sub/b.txt".toList, [])] ∧
    ({ path := "/root/sub".toList, name := "sub".toList, type := "Directory".toList,
       size := 4096, content_matches := [] } : SearchResult).content_matches = [] ∧
    ({ path := "/root/sub/b.txt".toList, name := "b.txt".toList, type := "File".toList,
       size := 10, content_matches := [] } : SearchResult)
      ∈ findFiles ecmaFragment todoCriteria "/root".toList (some sampleTree) :=
  ⟨by decide, by decide,
   (content_search_never_filters ecmaFragment todoCriteria [] false "/root".toList
      (some sampleTree)).2.2.1
     { path := "/root/sub".toList, name := "sub".toList, type := "Directory".toList,
       size := 4096, content_matches := [] } (by decide) (Or.inl (by decide)),
   (content_search_never_filters ecmaFragment todoCriteria [] false "/root".toList
      (some sampleTree)).2.2.2 sampleTree "/root/sub/b.txt".toList
     (DirEntry.mk "b.txt".toList (some fileStat) (some []) none) fileStat rfl
     (Or.inl ⟨rfl, Reaches.inside
       (d := DirEntry.mk "sub".toList (some dirStat) none
         (some [DirEntry.mk "b.txt".toList (some fileStat) (some []) none]))
       (List.mem_cons_of_mem _ (List.mem_singleton.2 rfl)) (by decide)
       (show _ = some dirStat from rfl) rfl rfl
       (Reaches.here (List.mem_singleton.2 rfl) (by decide))⟩)
     rfl rfl (by decide)
     (fun pattern text _ ht line hl => by
       have h0 : text = [] := (Option.some.inj ht).symm
       subst h0
       simp [getlines] at hl)⟩

/-! ## Turning recursion off -/

theorem walkEntry_not_recursive (lib : RegexLib) (c : SearchCriteria) (p : Str) (e : DirEntry) :
    walkEntry lib { c with recursive := false } p e
      = (if skipsName c e.name then none
          else match e.stat with
            | none => none
            | some file_stat =>
              if matchesCriteria lib (p ++ ['/'] ++ e.name) file_stat c then
                some (makeResult lib c (p ++ ['/'] ++ e.name) e.name file_stat e.content)
              else none).toList := by
  cases e with
  | mk name stat content dir =>
    unfold walkEntry
    have hs : skipsName { c with recursive := false } name = skipsName c name := rfl
    rw [hs]
    simp only [DirEntry.name, DirEntry.stat, DirEntry.content]
    by_cases hsk : skipsName c name = true
    · simp [hsk]
    · simp only [hsk, if_false, Bool.false_eq_true]
      cases stat with
      | none => rfl
      | some st =>
        have hm : matchesCriteria lib (p ++ ['/'] ++ name) st { c with recursive := false }
            = matchesCriteria lib (p ++ ['/'] ++ name) st c := rfl
        have hr : makeResult lib { c with recursive := false } (p ++ ['/'] ++ name) name st
            content = makeResult lib c (p ++ ['/'] ++ name) name st content := rfl
        simp only [hm, hr, false_and, if_false, List.append_nil, Bool.false_eq_true]
        by_cases hmc : matchesCriteria lib (p ++ ['/'] ++ name) st c = true
        · rw [if_pos hmc, if_pos hmc]; rfl
        · rw [if_neg hmc, if_neg hmc]; rfl

theorem walkEntries_not_recursive (lib : RegexLib) (c : SearchCriteria) (p : Str) :
    ∀ es : List DirEntry,
      walkEntries lib { c with recursive := false } p es
        = es.filterMap (fun e =>
            if skipsName c e.name then none
            else match e.stat with
              | none => none
              | some file_stat =>
                if matchesCriteria lib (p ++ ['/'] ++ e.name) file_stat c then
                  some (makeResult lib c (p ++ ['/'] ++ e.name) e.name file_stat e.content)
                else none) := by
  intro es
  induction es with
  | nil => rfl
  | cons e rest ih =>
    rw [walkEntries, ih, walkEntry_not_recursive, List.filterMap_cons]
    generalize (if skipsName c e.name then none
          else match e.stat with
            | none => none
            | some file_stat =>
              if matchesCriteria lib (p ++ ['/'] ++ e.name) file_stat c then
                some (makeResult lib c (p ++ ['/'] ++ e.name) e.name file_stat e.content)
              else none) = o
    cases o <;> rfl

theorem walkEntry_sublist_recursive (lib : RegexLib) (c : SearchCriteria) (p : Str)
    (e : DirEntry) :
    (walkEntry lib { c with recursive := false } p e).Sublist
      (walkEntry lib { c with recursive := true } p e) := by
  cases e with
  | mk name stat content dir =>
    unfold walkEntry
    have hs1 : skipsName { c with recursive := false } name = skipsName c name := rfl
    have hs2 : skipsName { c with recursive := true } name = skipsName c name := rfl
    rw [hs1, hs2]
    by_cases hsk : skipsName c name = true
    · simp [hsk]
    · simp only [hsk, if_false, Bool.false_eq_true]
      cases stat with
      | none => exact List.Sublist.refl _
      | some st =>
        simp only
        apply List.Sublist.append
        · exact List.Sublist.refl _
        · simp

theorem walkEntries_sublist_recursive (lib : RegexLib) (c : SearchCriteria) (p : Str) :
    ∀ es : List DirEntry,
      (walkEntries lib { c with recursive := false } p es).Sublist
        (walkEntries lib { c with recursive := true } p es) := by
  intro es
  induction es with
  | nil => exact List.Sublist.refl _
  | cons e rest ih =>
    rw [walkEntries, walkEntries]
    exact List.Sublist.append (walkEntry_sublist_recursive lib c p e) ih

/-- C30. Turning recursion off only removes results: for every directory tree, root and
criteria, the result list of `findFiles` with `recursive = false` is a sublist, in the same
order, of the result list with `recursive = true` and the other fields equal; it holds one
result for each direct entry of the root that is not skipped, whose metadata probe succeeds
and which satisfies `matchesCriteria`, in listing order, and nothing else; and it is empty
when the root cannot be opened. -/
theorem findFiles_not_recursive (lib : RegexLib) (c : SearchCriteria) (root : Str)
    (dir : Option (List DirEntry)) (es : List DirEntry) :
    (findFiles lib { c with recursive := false } root dir).Sublist
      (findFiles lib { c with recursive := true } root dir) ∧
    findFiles lib { c with recursive := false } root (some es)
      = es.filterMap (fun e =>
          if skipsName c e.name then none
          else match e.stat with
            | none => none
            | some file_stat =>
              if matchesCriteria lib (root ++ ['/'] ++ e.name) file_stat c then
                some (makeResult lib c (root ++ ['/'] ++ e.name) e.name file_stat e.content)
              else none) ∧
    findFiles lib { c with recursive := false } root none = [] := by
  refine ⟨?_, ?_, ?_⟩
  · rw [findFiles_eq_walk, findFiles_eq_walk]
    cases dir with
    | none => exact List.Sublist.refl _
    | some entries =>
      rw [walk, walk]
      exact walkEntries_sublist_recursive lib c root entries
  · rw [findFiles_eq_walk, walk]
    exact walkEntries_not_recursive lib c root es
  · rw [findFiles_eq_walk, walk]

/-- C30 on the tree `/root/{a.txt, sub/{b.txt}}` with the default criteria: without recursion
the results are `a.txt` and `sub`, with recursion `sub/b.txt` follows them. -/
theorem findFiles_not_recursive_witness :
    (findFiles ecmaFragment { defaultCriteria with recursive := false } "/root".toList
        (some sampleTree)).map (·.path) = ["/root/a.txt".toList, "/root/sub".toList] ∧
    (findFiles ecmaFragment { defaultCriteria with recursive := true } "/root".toList
        (some sampleTree)).map (·.path)
      = ["/root/a.txt".toList, "/root/sub".toList, "/root/sub/b.txt".toList] ∧
    (findFiles ecmaFragment { defaultCriteria with recursive := false } "/root".toList
        (some sampleTree)).Sublist
      (findFiles ecmaFragment { defaultCriteria with recursive := true } "/root".toList
        (some sampleTree)) :=
  ⟨by decide, by decide,
   (findFiles_not_recursive ecmaFragment defaultCriteria "/root".toList (some sampleTree) []).1⟩

end FileExplorer
